import Mathlib

/-!
# bizCon benchmark — verification of the evaluation core

Shallow embedding of the bizCon evaluation pipeline (the aggregation helpers
from `wiki/Evaluation-System.md`, the driver cells and helper functions of
`pipeline.ipynb`) and proofs about the frozen claims on its behaviour.
Python dictionaries appear as association lists, machine floats as exact
rationals, fallible operations (KeyError and friends) as `Option`.
-/

namespace BizCon

/-! ## Score aggregation (`wiki/Evaluation-System.md`) -/

/-- Association-list lookup, modelling Python dict indexing; `none` models a
missing key (a `KeyError` where the source indexes unconditionally). -/
def alookup {α : Type} (k : String) : List (String × α) → Option α
  | [] => none
  | (k', v) :: rest => if k' = k then some v else alookup k rest

/-- The running total of `calculate_overall_score`: iterate over
`evaluator_scores.items()` accumulating `score * weights[evaluator]`;
a missing weight key aborts with `none` (Python raises `KeyError`). -/
def overallTotal (weights : List (String × ℚ)) : List (String × ℚ) → ℚ → Option ℚ
  | [], total => some total
  | (evaluator, score) :: rest, total =>
    match alookup evaluator weights with
    | none => none
    | some w => overallTotal weights rest (total + score * w)

/-- Function `calculate_overall_score(evaluator_scores, weights)` from
`wiki/Evaluation-System.md`: sums `score * weights[evaluator]` over the
evaluator scores and returns `total * 100` ("Convert to percentage"). -/
def calculate_overall_score (evaluator_scores weights : List (String × ℚ)) : Option ℚ :=
  (overallTotal weights evaluator_scores 0).map (· * 100)

/-- The weighted sum the loop of `calculate_overall_score` computes, written
directly: `Σ score · weight(evaluator)` (missing keys contribute 0; the
theorems only use it where every key is present). -/
def weightedSum (weights : List (String × ℚ)) (evaluator_scores : List (String × ℚ)) : ℚ :=
  (evaluator_scores.map (fun p => p.2 * ((alookup p.1 weights).getD 0))).sum

/-- Sum of the values of a weight map. -/
def sndSum (ws : List (String × ℚ)) : ℚ :=
  (ws.map (fun p => p.2)).sum

/-- Remove the first binding of a key from an association list. -/
def eraseKey (k : String) : List (String × ℚ) → List (String × ℚ)
  | [] => []
  | (k', v) :: rest => if k' = k then rest else (k', v) :: eraseKey k rest

/-- Weights with every value scaled by a constant (used to show the aggregator
never renormalizes: its output scales with the raw weights). -/
def scaleWeights (c : ℚ) (ws : List (String × ℚ)) : List (String × ℚ) :=
  ws.map (fun p => (p.1, c * p.2))

/-! ## Success rate (`wiki/Evaluation-System.md`) -/

/-- Function `calculate_success_rate(score, base_rate=0.75)` from
`wiki/Evaluation-System.md`: the base rate adjusted by a clamped linear
function of the score ratio. -/
def calculate_success_rate (score base_rate : ℚ) : ℚ :=
  let score_ratio := score / 100
  let adjustment := (score_ratio - 3 / 4) * (3 / 10)
  min 1 (max 0 (base_rate + adjustment))

/-- Modelled from the spec: the "success rate" as the spec sentence describes
it — the fraction of runs whose overall score exceeds a configurable
threshold. No such computation exists in the source; this definition is used
only to compare the spec's description against `calculate_success_rate`. -/
def successRateFraction (overalls : List ℚ) (threshold : ℚ) : ℚ :=
  ((overalls.filter (fun s => decide (threshold < s))).length : ℚ) /
    (overalls.length : ℚ)

/-! ## Performance evaluator (`wiki/Evaluation-System.md`) -/

/-- Latency and token-count metadata attached to a model response. -/
structure PerfResponse where
  latency : ℚ
  tokens : ℚ

/-- The response-time component of `PerformanceEvaluator.evaluate`:
`max(0, 1 - latency / 5.0)` (baseline 5 seconds). -/
def time_score (latency : ℚ) : ℚ := max 0 (1 - latency / 5)

/-- The token-efficiency component of `PerformanceEvaluator.evaluate`:
`max(0, 1 - tokens / 500)` (baseline 500 tokens). -/
def token_score (tokens : ℚ) : ℚ := max 0 (1 - tokens / 500)

/-- Method `PerformanceEvaluator.evaluate` from `wiki/Evaluation-System.md`:
`time_score * 0.5 + token_score * 0.3 + cost_score * 0.2`. The helper
`_calculate_value_per_dollar` is not in the sources, so the cost component is
passed as a function parameter; the theorems assume only that it is bounded
like every sub-score. -/
def PerformanceEvaluator.evaluate (value_per_dollar : PerfResponse → ℚ)
    (r : PerfResponse) : ℚ :=
  time_score r.latency * (1 / 2) + token_score r.tokens * (3 / 10) +
    value_per_dollar r * (1 / 5)

/-! ## Model loading (`pipeline.ipynb`, `load_models_from_config`) -/

/-- The value of the Python `api_key` variable after the
`if not api_key: api_key = True` reassignment: either a string or the
boolean `True`. -/
inductive ApiKey : Type where
  | str : String → ApiKey
  | tru : ApiKey
deriving DecidableEq

/-- Python truthiness of an `api_key` value (empty strings are falsy,
`True` is truthy). -/
def ApiKey.truthy : ApiKey → Bool
  | .str s => !(s == "")
  | .tru => true

/-- One entry of the models list of the configuration (the fields the loader reads). -/
structure ModelConfig where
  provider : String
  name : String
  api_key : Option String

/-- The api-key resolution of `load_models_from_config`: the environment
variable named by the upper-cased provider followed by `_API_KEY` if the
variable is set, else the api-key field of the config entry; then any falsy
value (missing, or the empty string) is replaced by Python `True`. -/
def resolved_api_key (env : String → Option String) (mc : ModelConfig) : ApiKey :=
  let api_key : Option String :=
    match env (mc.provider.toUpper ++ "_API_KEY") with
    | some s => some s
    | none => mc.api_key
  match api_key with
  | none => ApiKey.tru
  | some s => if s = "" then ApiKey.tru else ApiKey.str s

/-- Function `load_models_from_config(config)` from `pipeline.ipynb`: for
every entry of the models list resolve the api key, and under the truthiness
guard on it construct a client (via `get_model_client`, external to the
sources and passed as a constructor parameter) and append it to the result
list. -/
def load_models_from_config {Client : Type} (env : String → Option String)
    (get_model_client : String → String → ApiKey → Client)
    (config : List ModelConfig) : List Client :=
  config.foldl (fun models mc =>
    let api_key := resolved_api_key env mc
    if api_key.truthy then
      models ++ [get_model_client mc.provider mc.name api_key]
    else
      models) []

/-! ## JSON-like values -/

/-- JSON-like structured values: strings, arrays and objects (Python dicts
read as pure values). Tool parameters, tool results and tool definitions are
such values; numeric and boolean leaves play no role in the claims and are
representable as string leaves. -/
inductive JVal : Type where
  | str : String → JVal
  | arr : List JVal → JVal
  | dict : List (String × JVal) → JVal

/-! ## The conversation driver (`pipeline.ipynb` cells) -/

/-- One entry of a model response's `tool_calls` list; `id` is
`call.get("id", "")`, `name` and `arguments` are the fields of
`call["function"]`. The `arguments` string is represented by its JSON parse:
`some p` for a string parsing to `p`, `none` for malformed JSON (on which
`json.loads` raises). -/
structure ToolCall where
  id : String
  name : String
  arguments : Option JVal

/-- A model response as the notebook reads it: `content` (with the
`response.get("content", "")` default folded in) and the optional
`tool_calls` list (`none` models the key being absent). -/
structure ModelResponse where
  content : String
  tool_calls : Option (List ToolCall)

/-- A conversation-history message. Python messages are dicts with varying
keys; keys a given message kind does not carry are modelled by `none` or `""`.
`content` holds a structured value: `.str` for plain text; for tool-result
messages the source stores `json.dumps(result)` and the serialized value is
kept in structured form. -/
structure Message where
  role : String
  content : JVal
  tool_calls : Option (List ToolCall)
  tool_call_id : String
  name : String

/-- A turn's scripted user message. -/
def userMessage (text : String) : Message :=
  ⟨"user", .str text, none, "", ""⟩

/-- The assistant message appended after a model response: role, content and —
only when the response has one — the `tool_calls` list. -/
def assistantMessage (r : ModelResponse) : Message :=
  ⟨"assistant", .str r.content, r.tool_calls, "", ""⟩

/-- The tool-result message `_process_tool_calls` appends: role `"tool"`, the
originating call's id and tool name, and the (serialized) result. -/
def toolMessage (call : ToolCall) (result : JVal) : Message :=
  ⟨"tool", result, none, call.id, call.name⟩

/-- The structured error object built when a tool is not found. -/
def toolNotFoundResult (tool_id : String) : JVal :=
  .dict [("error", .str "ToolNotFound"),
         ("message", .str ("Tool " ++ tool_id ++ " is not available")),
         ("status", .str "error")]

/-- One record of the `processed_calls` list of `_process_tool_calls`. -/
structure ProcessedCall where
  tool_id : String
  parameters : JVal
  result : JVal

/-- Function `_process_tool_calls(tool_calls)` from `pipeline.ipynb`, with the
conversation history threaded explicitly (the source mutates the module-level
`conversation_history`) and the available tools passed in place of
`get_default_tools()` (each tool's `call` capability is a total function on
parameter values, errors being structured result values). For each call: parse
the arguments (`json.loads` failure is the `.error` outcome); execute the tool
if its name is among the tools, recording the result and appending a tool
message; otherwise record and append the structured ToolNotFound object the
same way; then continue with the remaining calls. -/
def processToolCalls (tools : List (String × (JVal → JVal))) :
    List ToolCall → List ProcessedCall → List Message →
    Except String (List ProcessedCall × List Message)
  | [], processed, history => .ok (processed, history)
  | call :: rest, processed, history =>
    match call.arguments with
    | none => .error "JSONDecodeError"
    | some parameters =>
      match alookup call.name tools with
      | some tool =>
        let result := tool parameters
        processToolCalls tools rest
          (processed ++ [⟨call.name, parameters, result⟩])
          (history ++ [toolMessage call result])
      | none =>
        let error_result := toolNotFoundResult call.name
        processToolCalls tools rest
          (processed ++ [⟨call.name, parameters, error_result⟩])
          (history ++ [toolMessage call error_result])

/-- The result `_process_tool_calls` records for one call: the tool's output
when the name is among the tools, the ToolNotFound object otherwise. -/
def processOneResult (tools : List (String × (JVal → JVal))) (c : ToolCall) : JVal :=
  match alookup c.name tools with
  | some tool => tool (c.arguments.getD (.dict []))
  | none => toolNotFoundResult c.name

/-- The `processed_calls` entries for a list of calls. -/
def processedList (tools : List (String × (JVal → JVal))) (tcs : List ToolCall) :
    List ProcessedCall :=
  tcs.map (fun c => ⟨c.name, c.arguments.getD (.dict []), processOneResult tools c⟩)

/-- The tool-result messages appended for a list of calls. -/
def toolMessages (tools : List (String × (JVal → JVal))) (tcs : List ToolCall) :
    List Message :=
  tcs.map (fun c => toolMessage c (processOneResult tools c))

/-- One model request: the messages passed and the tools passed (`none` when
the `tools` argument is `None` or omitted). -/
structure Request where
  messages : List Message
  tools : Option (List JVal)

/-- What one execution of the notebook's turn cells did: the requests issued
to the model in order, the successive values of `conversation_history`, the
processed tool calls, and the first and final model responses. -/
structure TurnTrace where
  requests : List Request
  histories : List (List Message)
  processedCalls : List ProcessedCall
  firstResponse : ModelResponse
  finalResponse : ModelResponse

/-- The conversation-driver cells of `pipeline.ipynb` for one scripted turn,
exactly as executed there: request a response over the history with
`tools=tool_definitions if tool_definitions else None`; append the assistant
message; if the response carries tool calls, run `_process_tool_calls` (which
appends the tool-result messages); finally issue
`generate_response(messages=conversation_history)` — the second call passes
only `messages`. The model capability is a function of the issued request. -/
def runNotebookTurn (model : Request → ModelResponse)
    (tools : List (String × (JVal → JVal)))
    (initialHistory : List Message) (tool_definitions : List JVal) :
    Except String TurnTrace :=
  let req1 : Request :=
    ⟨initialHistory, if tool_definitions.isEmpty then none else some tool_definitions⟩
  let response := model req1
  let history2 := initialHistory ++ [assistantMessage response]
  match response.tool_calls with
  | some tcs =>
    match processToolCalls tools tcs [] history2 with
    | .error e => .error e
    | .ok (processed, history3) =>
      let req2 : Request := ⟨history3, none⟩
      let response2 := model req2
      .ok ⟨[req1, req2], [initialHistory, history2, history3], processed, response, response2⟩
  | none =>
    let req2 : Request := ⟨history2, none⟩
    let response2 := model req2
    .ok ⟨[req1, req2], [initialHistory, history2], [], response, response2⟩

/-! ## Concrete driver inputs for the counterexamples and witnesses -/

/-- A nonempty list of tool definitions (shape irrelevant to the claims). -/
def demoToolDefs : List JVal := [.dict [("type", .str "function")]]

/-- A tool call to `product_catalog` with well-formed (empty) arguments. -/
def demoCall : ToolCall := ⟨"call_1", "product_catalog", some (.dict [])⟩

/-- A tool call whose name is not among the available tools. -/
def unknownCall : ToolCall := ⟨"call_2", "no_such_tool", some (.dict [])⟩

/-- An available-tools table with the single tool `product_catalog`. -/
def demoTools : List (String × (JVal → JVal)) :=
  [("product_catalog", fun _ => .dict [("status", .str "success")])]

/-- The initial history: the turn's scripted user message. -/
def demoHistory : List Message := [userMessage "Hi"]

/-- A model that issues one tool call when given tools and then answers. -/
def demoModel : Request → ModelResponse := fun req =>
  if req.tools.isSome then ⟨"", some [demoCall]⟩ else ⟨"final answer", none⟩

/-- The turn the notebook cells execute against `demoModel`. -/
def demoTurn : Except String TurnTrace :=
  runNotebookTurn demoModel demoTools demoHistory demoToolDefs

/-- A pathological model that issues a tool call on every request. -/
def loopModel : Request → ModelResponse := fun _ => ⟨"", some [demoCall]⟩

/-- The turn the notebook cells execute against `loopModel`. -/
def loopTurn : Except String TurnTrace :=
  runNotebookTurn loopModel demoTools demoHistory demoToolDefs

/-- A placeholder trace (only used as a default that never surfaces). -/
def emptyTrace : TurnTrace :=
  ⟨[], [], [], ⟨"", none⟩, ⟨"", none⟩⟩

/-- The trace of `demoTurn` (which succeeds, so the default is irrelevant). -/
def demoTrace : TurnTrace := demoTurn.toOption.getD emptyTrace

/-- The trace of `loopTurn` (which succeeds, so the default is irrelevant). -/
def loopTrace : TurnTrace := loopTurn.toOption.getD emptyTrace

/-! ## A heap model of Python values

`remove_required_from_properties` deep-copies its argument and then mutates
dictionaries of the copy in place. To state that the input object is left
unchanged, Python values are modelled with an explicit heap: immutable string
leaves, and references into a heap of mutable dict/list cells. Dict entries
are association lists; Python dict keys are unique, so removing a key is
removing every binding of it. Allocation appends cells, so a heap built
bottom-up is down-closed: every cell refers only to strictly smaller
addresses. -/

/-- A Python runtime value: an immutable leaf or a reference to a heap cell. -/
inductive PyVal : Type where
  | str : String → PyVal
  | ref : Nat → PyVal

/-- A heap cell: a mutable dict or a mutable list. -/
inductive PyObj : Type where
  | dict : List (String × PyVal) → PyObj
  | list : List PyVal → PyObj

/-- The heap; the cell at address `a` is `h[a]?`. -/
abbrev Heap := List PyObj

/-- Every reference of the value is below `n`. -/
def PyVal.belowB (n : Nat) : PyVal → Bool
  | .str _ => true
  | .ref a => a < n

/-- Every reference of the cell is below `n`. -/
def PyObj.belowB (n : Nat) : PyObj → Bool
  | .dict es => es.all (fun p => p.2.belowB n)
  | .list vs => vs.all (fun v => v.belowB n)

/-- Auxiliary scan: cell at address `a` refers only below `a`. -/
def heapWFAux : Nat → List PyObj → Bool
  | _, [] => true
  | a, cell :: rest => cell.belowB a && heapWFAux (a + 1) rest

/-- The heap is down-closed: every cell refers only to smaller addresses
(true of every heap built by allocation). -/
def Heap.wf (h : Heap) : Bool := heapWFAux 0 h

/-- Read the value tree rooted at a value; `fuel` bounds the reference depth
(any `fuel` at least the heap size is enough on a down-closed heap). Dangling
or over-deep reads fall back to an empty string. -/
def readVal (h : Heap) : Nat → PyVal → JVal
  | _, .str s => .str s
  | 0, .ref _ => .str ""
  | fuel + 1, .ref a =>
    match h[a]? with
    | some (.dict es) => .dict (es.map (fun p => (p.1, readVal h fuel p.2)))
    | some (.list vs) => .arr (vs.map (fun v => readVal h fuel v))
    | none => .str ""

mutual

/-- Allocate a pure tree in the heap, bottom-up, returning the extended heap
and the value rooting the fresh copy. -/
def allocTree (h : Heap) : JVal → Heap × PyVal
  | .str s => (h, .str s)
  | .arr ts =>
    let p := allocList h ts
    (p.1 ++ [.list p.2], .ref p.1.length)
  | .dict es =>
    let p := allocEntries h es
    (p.1 ++ [.dict p.2], .ref p.1.length)

/-- Allocate each tree of a list in order. -/
def allocList (h : Heap) : List JVal → Heap × List PyVal
  | [] => (h, [])
  | t :: ts =>
    let p := allocTree h t
    let q := allocList p.1 ts
    (q.1, p.2 :: q.2)

/-- Allocate each entry value of an association list in order. -/
def allocEntries (h : Heap) : List (String × JVal) → Heap × List (String × PyVal)
  | [] => (h, [])
  | e :: es =>
    let p := allocTree h e.2
    let q := allocEntries p.1 es
    (q.1, (e.1, p.2) :: q.2)

end

/-- Python `copy.deepcopy(tool_definitions)`: read the value tree and allocate a
fresh copy sharing no cell with any existing object (exact for tree-shaped
values, which tool definitions are). -/
def deepcopy (h : Heap) (v : PyVal) : Heap × PyVal :=
  allocTree h (readVal h h.length v)

/-- Dict lookup through the heap, Python `.get`: the value under key `k` when
`v` refers to a dict cell. -/
def getKeyD (h : Heap) (v : PyVal) (k : String) : Option PyVal :=
  match v with
  | .ref a =>
    match h[a]? with
    | some (.dict ps) => alookup k ps
    | _ => none
  | _ => none

/-- The conditional delete of the source (check whether `required` is a key
of `prop`, and if so delete it): mutate the dict cell `pv` refers to,
removing the key `required` when present. -/
def delRequired (h : Heap) (pv : PyVal) : Heap :=
  match pv with
  | .ref a =>
    match h[a]? with
    | some (.dict ps) =>
      if (alookup "required" ps).isSome then
        h.set a (.dict (ps.filter (fun p => !(p.1 == "required"))))
      else h
    | _ => h
  | _ => h

/-- The property loop of the source (iterate over the items of
`properties`): run `delRequired` on every property value of the dict cell
`propsv` refers to. -/
def procProps (h : Heap) (propsv : PyVal) : Heap :=
  match propsv with
  | .ref a =>
    match h[a]? with
    | some (.dict ps) => ps.foldl (fun hh p => delRequired hh p.2) h
    | _ => h
  | _ => h

/-- One step of the source's chain of `.get` calls with empty-dict default:
apply `inner` to the value under key `k` when it exists, otherwise leave the
heap unchanged (the empty default makes the rest of the chain a no-op). A
non-dict value under `k` would raise in Python; the embedding leaves the
heap unchanged there, and the theorem's wellformedness hypothesis excludes
that case. -/
def procAtKey (k : String) (inner : Heap → PyVal → Heap) (h : Heap) (v : PyVal) :
    Heap :=
  match getKeyD h v k with
  | some w => inner h w
  | none => h

/-- The body of the loop over the copied tool definitions: follow the
defaulted `.get` chain `function`, `parameters`, `properties` and run the
property loop there. -/
def procTool : Heap → PyVal → Heap :=
  procAtKey "function" (procAtKey "parameters" (procAtKey "properties" procProps))

/-- The whole mutation phase of `remove_required_from_properties`: iterate
`procTool` over the tools of the copied list. -/
def processTools (h : Heap) (v : PyVal) : Heap :=
  match v with
  | .ref a =>
    match h[a]? with
    | some (.list vs) => vs.foldl procTool h
    | _ => h
  | _ => h

/-- Function `remove_required_from_properties(tool_definitions)` from `pipeline.ipynb`:
deep-copy the argument, delete `required` from every property of every tool's
`function.parameters.properties` dict of the copy, and return the copy. -/
def remove_required_from_properties (h : Heap) (tool_definitions : PyVal) :
    Heap × PyVal :=
  let p := deepcopy h tool_definitions
  (processTools p.1 p.2, p.2)

/-! ## The spec-side description of the result -/

/-- Update the value of the first binding of `k` (exactly the entry a Python
dict lookup-and-mutate reaches). -/
def updateAt (k : String) (f : JVal → JVal) : List (String × JVal) → List (String × JVal)
  | [] => []
  | e :: rest =>
    if e.1 == k then (e.1, f e.2) :: rest else e :: updateAt k f rest

/-- Remove the key `required` from a property object. -/
def stripProp : JVal → JVal
  | .dict ps => .dict (ps.filter (fun p => !(p.1 == "required")))
  | t => t

/-- Remove `required` from every property of a `properties` object. -/
def stripProps : JVal → JVal
  | .dict ps => .dict (ps.map (fun p => (p.1, stripProp p.2)))
  | t => t

/-- Transform the value under `k` of a dict, leaving everything else as is. -/
def stripAtKey (k : String) (f : JVal → JVal) : JVal → JVal
  | .dict ds => .dict (updateAt k f ds)
  | t => t

/-- The claimed shape of the result: identical to the input except that
`required` is absent from every property of every tool's
function-parameter properties. -/
def stripRequired : JVal → JVal
  | .arr ts => .arr (ts.map (stripAtKey "function" (stripAtKey "parameters"
      (stripAtKey "properties" stripProps))))
  | t => t

/-- Is the value a JSON object? -/
def isDict : JVal → Bool
  | .dict _ => true
  | _ => false

/-- When the key is present, its value satisfies `innerWF`. -/
def atKeyWF (k : String) (innerWF : JVal → Bool) : JVal → Bool
  | .dict ds =>
    match alookup k ds with
    | some tv => innerWF tv
    | none => true
  | _ => true

/-- A `properties` object: a dict whose values are dicts (anything else would
raise in the Python source). -/
def propsWF : JVal → Bool
  | .dict ps => ps.all (fun p => isDict p.2)
  | _ => false

/-- A `parameters` object: a dict whose `properties` (if any) is wellformed. -/
def paramsWF (t : JVal) : Bool := isDict t && atKeyWF "properties" propsWF t

/-- A `function` object: a dict whose `parameters` (if any) is wellformed. -/
def functionWF (t : JVal) : Bool := isDict t && atKeyWF "parameters" paramsWF t

/-- A tool definition: its `function` (if any) is wellformed. -/
def toolWF : JVal → Bool := atKeyWF "function" functionWF

/-- A tool-definition list: a JSON array of wellformed tool definitions. -/
def toolDefsWF : JVal → Bool
  | .arr ts => ts.all toolWF
  | _ => false

mutual

/-- Encoding relation `Encodes h lo hi v t`: in heap `h` the value `v` encodes the tree `t`,
with every reachable cell address in `[lo, hi)`; sibling subtrees occupy
disjoint, consecutive address subranges (the layout produced by
allocation). -/
def Encodes (h : Heap) (lo hi : Nat) : PyVal → JVal → Prop
  | v, .str s => v = .str s
  | v, .arr ts => ∃ a vs, v = .ref a ∧ lo ≤ a ∧ a < hi ∧
      h[a]? = some (.list vs) ∧ EncodesList h lo a vs ts
  | v, .dict ds => ∃ a ps, v = .ref a ∧ lo ≤ a ∧ a < hi ∧
      h[a]? = some (.dict ps) ∧ EncodesEntries h lo a ps ds

/-- Consecutive disjoint encoding of the elements of a list cell. -/
def EncodesList (h : Heap) (lo hi : Nat) : List PyVal → List JVal → Prop
  | [], [] => True
  | v :: vs, t :: ts => ∃ mid, lo ≤ mid ∧ mid ≤ hi ∧ Encodes h lo mid v t ∧
      EncodesList h mid hi vs ts
  | _, _ => False

/-- Consecutive disjoint encoding of the entries of a dict cell. -/
def EncodesEntries (h : Heap) (lo hi : Nat) : List (String × PyVal) →
    List (String × JVal) → Prop
  | [], [] => True
  | p :: ps, d :: ds => p.1 = d.1 ∧ ∃ mid, lo ≤ mid ∧ mid ≤ hi ∧
      Encodes h lo mid p.2 d.2 ∧ EncodesEntries h mid hi ps ds
  | _, _ => False

end

theorem alookup_mem {k : String} {v : ℚ} :
    ∀ {ws : List (String × ℚ)}, alookup k ws = some v → (k, v) ∈ ws := by
  intro ws
  induction ws with
  | nil => intro h; simp [alookup] at h
  | cons p rest ih =>
    intro h
    rw [alookup] at h
    by_cases hk : p.1 = k
    · rw [if_pos hk] at h
      obtain rfl : p.2 = v := Option.some.inj h
      subst hk
      simp
    · rw [if_neg hk] at h
      exact List.mem_cons_of_mem _ (ih h)

theorem alookup_eraseKey_ne {k' k : String} (hne : k' ≠ k) :
    ∀ (ws : List (String × ℚ)), alookup k' (eraseKey k ws) = alookup k' ws := by
  intro ws
  induction ws with
  | nil => rfl
  | cons p rest ih =>
    rw [eraseKey]
    by_cases hk : p.1 = k
    · rw [if_pos hk, alookup, if_neg (by rw [hk]; exact fun h => hne h.symm)]
    · rw [if_neg hk, alookup, alookup]
      by_cases hk' : p.1 = k'
      · rw [if_pos hk', if_pos hk']
      · rw [if_neg hk', if_neg hk', ih]

theorem sndSum_eraseKey {k : String} {w : ℚ} :
    ∀ {ws : List (String × ℚ)}, alookup k ws = some w →
      sndSum ws = w + sndSum (eraseKey k ws) := by
  intro ws
  induction ws with
  | nil => intro h; simp [alookup] at h
  | cons p rest ih =>
    intro h
    rw [alookup] at h
    by_cases hk : p.1 = k
    · rw [if_pos hk] at h
      obtain rfl : p.2 = w := Option.some.inj h
      simp [sndSum, eraseKey, if_pos hk]
    · rw [if_neg hk] at h
      have hrec := ih h
      simp only [sndSum, eraseKey, if_neg hk, List.map_cons, List.sum_cons]
      rw [show (List.map (fun p => p.2) rest).sum = sndSum rest from rfl,
          show (List.map (fun p => p.2) (eraseKey k rest)).sum = sndSum (eraseKey k rest) from rfl,
          hrec]
      ring

theorem eraseKey_subset {k : String} {p : String × ℚ} :
    ∀ {ws : List (String × ℚ)}, p ∈ eraseKey k ws → p ∈ ws := by
  intro ws
  induction ws with
  | nil => intro h; simp [eraseKey] at h
  | cons q rest ih =>
    intro h
    rw [eraseKey] at h
    by_cases hk : q.1 = k
    · rw [if_pos hk] at h
      exact List.mem_cons_of_mem _ h
    · rw [if_neg hk] at h
      rcases List.mem_cons.mp h with h1 | h1
      · exact h1 ▸ List.mem_cons_self _ _
      · exact List.mem_cons_of_mem _ (ih h1)

theorem weightedSum_congr_eraseKey {k : String} {es ws : List (String × ℚ)}
    (hne : ∀ p ∈ es, p.1 ≠ k) :
    weightedSum (eraseKey k ws) es = weightedSum ws es := by
  unfold weightedSum
  congr 1
  apply List.map_congr_left
  intro p hp
  rw [alookup_eraseKey_ne (hne p hp)]

theorem weightedSum_nonneg {ws es : List (String × ℚ)}
    (hw : ∀ p ∈ ws, 0 ≤ p.2) (hs : ∀ p ∈ es, 0 ≤ p.2) :
    0 ≤ weightedSum ws es := by
  unfold weightedSum
  apply List.sum_nonneg
  intro x hx
  rcases List.mem_map.mp hx with ⟨p, hp, rfl⟩
  apply mul_nonneg (hs p hp)
  cases hlk : alookup p.1 ws with
  | none => simp
  | some w =>
    simpa using hw _ (alookup_mem hlk)

theorem sndSum_nonneg {ws : List (String × ℚ)} (hw : ∀ p ∈ ws, 0 ≤ p.2) :
    0 ≤ sndSum ws := by
  unfold sndSum
  apply List.sum_nonneg
  intro x hx
  rcases List.mem_map.mp hx with ⟨p, hp, rfl⟩
  exact hw p hp

/-- With distinct score keys, scores ≤ 1 and nonnegative weights, the weighted
sum is bounded by the total weight. -/
theorem weightedSum_le_sndSum :
    ∀ (es ws : List (String × ℚ)),
      (es.map Prod.fst).Nodup →
      (∀ p ∈ es, 0 ≤ p.2 ∧ p.2 ≤ 1) →
      (∀ p ∈ ws, 0 ≤ p.2) →
      (∀ p ∈ es, (alookup p.1 ws).isSome) →
      weightedSum ws es ≤ sndSum ws := by
  intro es
  induction es with
  | nil =>
    intro ws _ _ hw _
    simpa [weightedSum] using sndSum_nonneg hw
  | cons p rest ih =>
    intro ws hnodup hs hw hpresent
    obtain ⟨w, hlk⟩ := Option.isSome_iff_exists.mp (hpresent p (List.mem_cons_self _ _))
    have hw0 : 0 ≤ w := by simpa using hw _ (alookup_mem hlk)
    have hs1 : p.2 ≤ 1 := (hs p (List.mem_cons_self _ _)).2
    rw [List.map_cons] at hnodup
    have hhead_notin := (List.nodup_cons.mp hnodup).1
    have htail := (List.nodup_cons.mp hnodup).2
    have hrestne : ∀ q ∈ rest, q.1 ≠ p.1 := fun q hq hEq =>
      hhead_notin (hEq ▸ List.mem_map_of_mem Prod.fst hq)
    have hrest : weightedSum ws rest ≤ sndSum (eraseKey p.1 ws) := by
      rw [← weightedSum_congr_eraseKey hrestne]
      apply ih
      · exact htail
      · exact fun q hq => hs q (List.mem_cons_of_mem _ hq)
      · exact fun q hq => hw q (eraseKey_subset hq)
      · intro q hq
        rw [alookup_eraseKey_ne (hrestne q hq)]
        exact hpresent q (List.mem_cons_of_mem _ hq)
    have hhead : p.2 * ((alookup p.1 ws).getD 0) ≤ w := by
      rw [hlk]
      simpa using mul_le_of_le_one_left hw0 hs1
    calc weightedSum ws (p :: rest)
        = p.2 * ((alookup p.1 ws).getD 0) + weightedSum ws rest := by
          simp [weightedSum]
      _ ≤ w + sndSum (eraseKey p.1 ws) := add_le_add hhead hrest
      _ = sndSum ws := (sndSum_eraseKey hlk).symm

/-- When every score key has a weight, the loop computes the weighted sum. -/
theorem overallTotal_eq :
    ∀ (es : List (String × ℚ)) (ws : List (String × ℚ)) (t : ℚ),
      (∀ p ∈ es, (alookup p.1 ws).isSome) →
      overallTotal ws es t = some (t + weightedSum ws es) := by
  intro es
  induction es with
  | nil => intro ws t _; simp [overallTotal, weightedSum]
  | cons p rest ih =>
    intro ws t hpresent
    obtain ⟨w, hlk⟩ := Option.isSome_iff_exists.mp (hpresent p (List.mem_cons_self _ _))
    calc overallTotal ws (p :: rest) t
        = overallTotal ws rest (t + p.2 * w) := by
          rw [show (p : String × ℚ) = (p.1, p.2) from rfl, overallTotal, hlk]
      _ = some (t + p.2 * w + weightedSum ws rest) :=
          ih ws _ (fun q hq => hpresent q (List.mem_cons_of_mem _ hq))
      _ = some (t + weightedSum ws (p :: rest)) := by
          simp only [weightedSum, List.map_cons, List.sum_cons, hlk, Option.getD_some,
            Option.some.injEq]
          ring

/-- When every score key has a weight, `calculate_overall_score` returns the
weighted sum scaled to a percentage. -/
theorem calculate_overall_score_eq {es ws : List (String × ℚ)}
    (hpresent : ∀ p ∈ es, (alookup p.1 ws).isSome) :
    calculate_overall_score es ws = some (weightedSum ws es * 100) := by
  unfold calculate_overall_score
  rw [overallTotal_eq es ws 0 hpresent]
  simp

theorem alookup_scaleWeights (c : ℚ) (k : String) :
    ∀ (ws : List (String × ℚ)),
      alookup k (scaleWeights c ws) = (alookup k ws).map (fun w => c * w) := by
  intro ws
  induction ws with
  | nil => rfl
  | cons p rest ih =>
    simp only [scaleWeights, List.map_cons, alookup]
    by_cases hk : p.1 = k
    · rw [if_pos hk, if_pos hk]
      rfl
    · rw [if_neg hk, if_neg hk, ← scaleWeights, ih]

theorem weightedSum_scaleWeights (c : ℚ) (ws es : List (String × ℚ)) :
    weightedSum (scaleWeights c ws) es = c * weightedSum ws es := by
  unfold weightedSum
  induction es with
  | nil => simp
  | cons p rest ih =>
    simp only [List.map_cons, List.sum_cons, ih]
    rw [alookup_scaleWeights]
    cases alookup p.1 ws with
    | none => simp
    | some w => simp; ring

/-- C1 counterexample: with the single dimension `response_quality` weighted
1.0 (the weights sum to exactly 1.0) and its score 1.0 ∈ [0,1], the aggregator
returns 100 — outside [0,1]. -/
theorem C1_counterexample :
    sndSum [("response_quality", (1 : ℚ))] = 1 ∧
    calculate_overall_score [("response_quality", (1 : ℚ))]
        [("response_quality", (1 : ℚ))] = some 100 ∧
    ¬ ((100 : ℚ) ≤ 1) := by
  refine ⟨by norm_num [sndSum], ?_, by norm_num⟩
  norm_num [calculate_overall_score, overallTotal, alookup]

/-- C1 (amended): for every weight map with nonnegative values summing to 1.0
within ±1e-6 and every score vector in [0,1] (with distinct dimension keys,
each having a configured weight), the overall score computed by
`calculate_overall_score` lies in [0, 100·(1+1e-6)] — a score out of 100, not
out of 1. -/
theorem C1_overall_score_percent_bounded (es ws : List (String × ℚ))
    (hnodup : (es.map Prod.fst).Nodup)
    (hs : ∀ p ∈ es, 0 ≤ p.2 ∧ p.2 ≤ 1)
    (hw : ∀ p ∈ ws, 0 ≤ p.2)
    (hsum : |sndSum ws - 1| ≤ 1 / 1000000)
    (hpresent : ∀ p ∈ es, (alookup p.1 ws).isSome) :
    ∃ t, calculate_overall_score es ws = some t ∧
      0 ≤ t ∧ t ≤ 100 * (1 + 1 / 1000000) := by
  refine ⟨weightedSum ws es * 100, calculate_overall_score_eq hpresent, ?_, ?_⟩
  · have h0 := weightedSum_nonneg hw (fun p hp => (hs p hp).1)
    nlinarith
  · have h1 := weightedSum_le_sndSum es ws hnodup hs hw hpresent
    have h2 : sndSum ws ≤ 1 + 1 / 1000000 := by
      have := (abs_le.mp hsum).2
      linarith
    nlinarith

/-- C1 witness for the amended theorem. -/
theorem C1_witness :
    ∃ t, calculate_overall_score [("response_quality", (1 : ℚ) / 2)]
        [("response_quality", (1 : ℚ))] = some t ∧
      0 ≤ t ∧ t ≤ 100 * (1 + 1 / 1000000) :=
  C1_overall_score_percent_bounded _ _ (by simp) (by norm_num) (by norm_num)
    (by norm_num [sndSum]) (by simp [alookup])

/-- C2 counterexample: a weight map summing to 0.5 — far outside the ±1e-6
tolerance — yet the aggregation step returns an overall score (50) instead of
failing with a configuration error. -/
theorem C2_counterexample :
    ¬ (|sndSum [("a", (1 : ℚ) / 2)] - 1| ≤ 1 / 1000000) ∧
    calculate_overall_score [("a", (1 : ℚ))] [("a", (1 : ℚ) / 2)] = some 50 := by
  refine ⟨by norm_num [sndSum, abs_le], ?_⟩
  norm_num [calculate_overall_score, overallTotal, alookup]

/-- C2 (amended): the aggregation step performs no weight-sum validation at
all: whatever the weights sum to, it computes and returns the weighted total
(failing only on a missing weight key), and it never renormalizes — scaling
every weight by c scales the overall score by c. -/
theorem C2_no_failfast_no_renormalize (es ws : List (String × ℚ)) (c : ℚ)
    (hpresent : ∀ p ∈ es, (alookup p.1 ws).isSome) :
    calculate_overall_score es ws = some (weightedSum ws es * 100) ∧
    calculate_overall_score es (scaleWeights c ws)
      = some (c * weightedSum ws es * 100) := by
  constructor
  · exact calculate_overall_score_eq hpresent
  · have hpres' : ∀ p ∈ es, (alookup p.1 (scaleWeights c ws)).isSome := by
      intro p hp
      have h1 := hpresent p hp
      rw [alookup_scaleWeights]
      cases hlk : alookup p.1 ws with
      | none => rw [hlk] at h1; simp at h1
      | some w => simp [hlk]
    rw [calculate_overall_score_eq hpres', weightedSum_scaleWeights]

/-- C2 witness for the amended theorem. -/
theorem C2_witness :
    calculate_overall_score [("a", (1 : ℚ))] [("a", (1 : ℚ) / 2)]
      = some (weightedSum [("a", (1 : ℚ) / 2)] [("a", (1 : ℚ))] * 100) ∧
    calculate_overall_score [("a", (1 : ℚ))] (scaleWeights 2 [("a", (1 : ℚ) / 2)])
      = some (2 * weightedSum [("a", (1 : ℚ) / 2)] [("a", (1 : ℚ))] * 100) :=
  C2_no_failfast_no_renormalize _ _ 2 (by simp [alookup])

/-- C7 counterexample: a model whose single stored run scored 100: for
threshold 50 the fraction of runs above the threshold is 1, but the code's
derived success rate is `calculate_success_rate(100) = 0.825` — the two do
not agree. -/
theorem C7_counterexample :
    calculate_success_rate 100 (3 / 4) ≠ successRateFraction [100] 50 := by
  norm_num [calculate_success_rate, successRateFraction]

/-- C7 (amended): the derived "success rate" is not a fraction of runs above a
threshold: it is the clamped linear adjustment of a base rate by score ratio
implemented by `calculate_success_rate` — always in [0,1] and monotone in the
score, computed from the stored score rather than stored redundantly. -/
theorem C7_success_rate_clamped_linear (b s₁ s₂ : ℚ) (h : s₁ ≤ s₂) :
    0 ≤ calculate_success_rate s₁ b ∧ calculate_success_rate s₁ b ≤ 1 ∧
    calculate_success_rate s₁ b ≤ calculate_success_rate s₂ b := by
  unfold calculate_success_rate
  refine ⟨le_min (by norm_num) (le_max_left _ _), min_le_left _ _, ?_⟩
  apply min_le_min le_rfl
  apply max_le_max le_rfl
  have : (s₁ / 100 - 3 / 4) * (3 / 10) ≤ (s₂ / 100 - 3 / 4) * (3 / 10) := by
    linarith
  linarith

/-- C7 witness for the amended theorem. -/
theorem C7_witness :
    0 ≤ calculate_success_rate 80 (3 / 4) ∧ calculate_success_rate 80 (3 / 4) ≤ 1 ∧
    calculate_success_rate 80 (3 / 4) ≤ calculate_success_rate 90 (3 / 4) :=
  C7_success_rate_clamped_linear (3 / 4) 80 90 (by norm_num)

/-- C8: the performance evaluator scores each metric on a saturating linear
scale — 1 at the floor (zero latency / zero tokens), linearly decreasing, 0
once the metric reaches its ceiling (5 s, 500 tokens) — each component stays
in [0,1] for nonnegative metrics, and the combined evaluator score stays in
[0,1] whenever the cost component does. -/
theorem C8_performance_saturating (vpd : PerfResponse → ℚ) (r : PerfResponse)
    (hl : 0 ≤ r.latency) (ht : 0 ≤ r.tokens)
    (hc0 : 0 ≤ vpd r) (hc1 : vpd r ≤ 1) :
    time_score 0 = 1 ∧ token_score 0 = 1 ∧
    (5 ≤ r.latency → time_score r.latency = 0) ∧
    (500 ≤ r.tokens → token_score r.tokens = 0) ∧
    (r.latency ≤ 5 → time_score r.latency = 1 - r.latency / 5) ∧
    (r.tokens ≤ 500 → token_score r.tokens = 1 - r.tokens / 500) ∧
    (0 ≤ time_score r.latency ∧ time_score r.latency ≤ 1) ∧
    (0 ≤ token_score r.tokens ∧ token_score r.tokens ≤ 1) ∧
    0 ≤ PerformanceEvaluator.evaluate vpd r ∧
    PerformanceEvaluator.evaluate vpd r ≤ 1 := by
  have htime0 : 0 ≤ time_score r.latency := le_max_left _ _
  have htime1 : time_score r.latency ≤ 1 := by
    apply max_le (by norm_num)
    linarith [div_nonneg hl (by norm_num : (0 : ℚ) ≤ 5)]
  have htok0 : 0 ≤ token_score r.tokens := le_max_left _ _
  have htok1 : token_score r.tokens ≤ 1 := by
    apply max_le (by norm_num)
    linarith [div_nonneg ht (by norm_num : (0 : ℚ) ≤ 500)]
  refine ⟨by norm_num [time_score], by norm_num [token_score], ?_, ?_, ?_, ?_,
    ⟨htime0, htime1⟩, ⟨htok0, htok1⟩, ?_, ?_⟩
  · intro h5
    apply max_eq_left
    linarith
  · intro h500
    apply max_eq_left
    linarith
  · intro h5
    apply max_eq_right
    linarith
  · intro h500
    apply max_eq_right
    linarith
  · unfold PerformanceEvaluator.evaluate
    nlinarith
  · unfold PerformanceEvaluator.evaluate
    nlinarith

/-- C8 witness: a concrete response (2 s latency, 100 tokens, cost component
1/2). -/
theorem C8_witness :
    time_score 0 = 1 ∧ token_score 0 = 1 ∧
    (5 ≤ (PerfResponse.mk 2 100).latency → time_score (PerfResponse.mk 2 100).latency = 0) ∧
    (500 ≤ (PerfResponse.mk 2 100).tokens → token_score (PerfResponse.mk 2 100).tokens = 0) ∧
    ((PerfResponse.mk 2 100).latency ≤ 5 →
      time_score (PerfResponse.mk 2 100).latency = 1 - (PerfResponse.mk 2 100).latency / 5) ∧
    ((PerfResponse.mk 2 100).tokens ≤ 500 →
      token_score (PerfResponse.mk 2 100).tokens = 1 - (PerfResponse.mk 2 100).tokens / 500) ∧
    (0 ≤ time_score (PerfResponse.mk 2 100).latency ∧
      time_score (PerfResponse.mk 2 100).latency ≤ 1) ∧
    (0 ≤ token_score (PerfResponse.mk 2 100).tokens ∧
      token_score (PerfResponse.mk 2 100).tokens ≤ 1) ∧
    0 ≤ PerformanceEvaluator.evaluate (fun _ => 1 / 2) (PerfResponse.mk 2 100) ∧
    PerformanceEvaluator.evaluate (fun _ => 1 / 2) (PerfResponse.mk 2 100) ≤ 1 :=
  C8_performance_saturating (fun _ => 1 / 2) (PerfResponse.mk 2 100)
    (by norm_num) (by norm_num) (by norm_num) (by norm_num)

/-- C9: for every environment and configuration, the truthiness guard of
`load_models_from_config` is unreachable in its skip direction — the resolved
api key is always truthy because falsy values are replaced by `True` — so the
loader constructs one client per configured model even with no API key
anywhere. -/
theorem C9_one_client_per_configured_model {Client : Type}
    (env : String → Option String)
    (gmc : String → String → ApiKey → Client) (config : List ModelConfig) :
    (∀ mc : ModelConfig, (resolved_api_key env mc).truthy = true) ∧
    (load_models_from_config env gmc config).length = config.length := by
  have htruthy : ∀ mc : ModelConfig, (resolved_api_key env mc).truthy = true := by
    intro mc
    unfold resolved_api_key
    cases env (mc.provider.toUpper ++ "_API_KEY") with
    | some s =>
      by_cases hs : s = ""
      · simp [hs, ApiKey.truthy]
      · simp [hs, ApiKey.truthy]
    | none =>
      cases mc.api_key with
      | none => rfl
      | some s =>
        by_cases hs : s = ""
        · simp [hs, ApiKey.truthy]
        · simp [hs, ApiKey.truthy]
  refine ⟨htruthy, ?_⟩
  have hfold : ∀ (cfg : List ModelConfig) (acc : List Client),
      (List.foldl (fun models mc =>
        let api_key := resolved_api_key env mc
        if api_key.truthy then
          models ++ [gmc mc.provider mc.name api_key]
        else
          models) acc cfg).length = acc.length + cfg.length := by
    intro cfg
    induction cfg with
    | nil => intro acc; simp
    | cons mc rest ih =>
      intro acc
      simp only [List.foldl_cons, htruthy mc, if_true]
      rw [ih]
      simp
      omega
  unfold load_models_from_config
  rw [hfold]
  simp

theorem processedList_length (tools : List (String × (JVal → JVal)))
    (tcs : List ToolCall) : (processedList tools tcs).length = tcs.length := by
  simp [processedList]

/-- Running `_process_tool_calls` on calls whose arguments all parse: no exception —
the result is `.ok`, with one processed record and one appended tool message
per call. -/
theorem processToolCalls_ok (tools : List (String × (JVal → JVal))) :
    ∀ (calls : List ToolCall) (processed : List ProcessedCall) (history : List Message),
      (∀ c ∈ calls, c.arguments.isSome) →
      processToolCalls tools calls processed history
        = .ok (processed ++ processedList tools calls,
               history ++ toolMessages tools calls) := by
  intro calls
  induction calls with
  | nil =>
    intro processed history _
    simp [processToolCalls, processedList, toolMessages]
  | cons c rest ih =>
    intro processed history hparse
    obtain ⟨p, hp⟩ := Option.isSome_iff_exists.mp (hparse c (List.mem_cons_self _ _))
    have hrest : ∀ c ∈ rest, c.arguments.isSome :=
      fun c hc => hparse c (List.mem_cons_of_mem _ hc)
    cases hlk : alookup c.name tools with
    | some tool =>
      rw [processToolCalls, hp]
      simp only [hlk]
      rw [ih _ _ hrest]
      simp [processedList, toolMessages, processOneResult, hlk, hp]
    | none =>
      rw [processToolCalls, hp]
      simp only [hlk]
      rw [ih _ _ hrest]
      simp [processedList, toolMessages, processOneResult, hlk, hp]

/-- If `_process_tool_calls` returned normally, every call's arguments
parsed. -/
theorem processToolCalls_ok_parse (tools : List (String × (JVal → JVal))) :
    ∀ (calls : List ToolCall) (processed : List ProcessedCall)
      (history : List Message) (result : List ProcessedCall × List Message),
      processToolCalls tools calls processed history = .ok result →
      ∀ c ∈ calls, c.arguments.isSome := by
  intro calls
  induction calls with
  | nil =>
    intro _ _ _ _ c hc
    simp at hc
  | cons c rest ih =>
    intro processed history result hok c' hc'
    rw [processToolCalls] at hok
    cases hp : c.arguments with
    | none => rw [hp] at hok; simp at hok
    | some p =>
      rw [hp] at hok
      rcases List.mem_cons.mp hc' with h1 | h1
      · subst h1; simp [hp]
      · cases hlk : alookup c.name tools with
        | some tool =>
          simp only [hlk] at hok
          exact ih _ _ _ hok c' h1
        | none =>
          simp only [hlk] at hok
          exact ih _ _ _ hok c' h1

/-- Complete characterization of a successful notebook turn: the first request
carries the history and the tool definitions, the assistant message is
appended, tool calls (when present) are processed in one round appending
their tool messages, and the second request carries only the updated
history. -/
theorem runNotebookTurn_ok_spec (model : Request → ModelResponse)
    (tools : List (String × (JVal → JVal)))
    (h0 : List Message) (tds : List JVal) (trace : TurnTrace)
    (hok : runNotebookTurn model tools h0 tds = .ok trace) :
    ∃ req1 r1 h2,
      req1 = Request.mk h0 (if tds.isEmpty then none else some tds) ∧
      r1 = model req1 ∧
      h2 = h0 ++ [assistantMessage r1] ∧
      ((r1.tool_calls = none ∧
        trace = ⟨[req1, ⟨h2, none⟩], [h0, h2], [], r1, model ⟨h2, none⟩⟩) ∨
       (∃ tcs, r1.tool_calls = some tcs ∧ (∀ c ∈ tcs, c.arguments.isSome) ∧
        trace = ⟨[req1, ⟨h2 ++ toolMessages tools tcs, none⟩],
                 [h0, h2, h2 ++ toolMessages tools tcs],
                 processedList tools tcs, r1,
                 model ⟨h2 ++ toolMessages tools tcs, none⟩⟩)) := by
  simp only [runNotebookTurn] at hok
  cases hr : (model ⟨h0, if tds.isEmpty then none else some tds⟩).tool_calls with
  | none =>
    rw [hr] at hok
    dsimp only at hok
    rw [Except.ok.injEq] at hok
    exact ⟨_, _, _, rfl, rfl, rfl, Or.inl ⟨hr, hok.symm⟩⟩
  | some tcs =>
    rw [hr] at hok
    dsimp only at hok
    have hparse : ∀ c ∈ tcs, c.arguments.isSome := by
      cases hpt : processToolCalls tools tcs []
          (h0 ++ [assistantMessage (model ⟨h0, if tds.isEmpty then none else some tds⟩)]) with
      | error e => rw [hpt] at hok; simp at hok
      | ok pr => exact processToolCalls_ok_parse tools tcs _ _ _ hpt
    rw [processToolCalls_ok tools tcs [] _ hparse] at hok
    dsimp only [List.nil_append] at hok
    rw [Except.ok.injEq] at hok
    refine ⟨_, _, _, rfl, rfl, rfl, Or.inr ⟨tcs, hr, hparse, ?_⟩⟩
    exact hok.symm

/-- C3 counterexample: in a turn with a nonempty tool-definition set whose
first response carries a tool call (the shape recorded in the notebook), the
re-request issued after the tool results were appended passes `tools=None`:
the turn's requests carry tools `[some demoToolDefs, none]` — so not every
request passes the scenario's tool definitions. -/
theorem C3_counterexample :
    demoTurn.map (fun t => t.requests.map Request.tools)
      = .ok [some demoToolDefs, none] ∧
    demoToolDefs ≠ [] ∧ (none : Option (List JVal)) ≠ some demoToolDefs := by
  refine ⟨rfl, by simp [demoToolDefs], by simp⟩

/-- C3 (amended): every model request of a turn passes the entire current
message history, but only the first request carries the scenario's tool
definitions; the re-request made after tool results are appended passes the
updated full history and no tool definitions. -/
theorem C3_rerequest_drops_tools (model : Request → ModelResponse)
    (tools : List (String × (JVal → JVal)))
    (h0 : List Message) (tds : List JVal) (trace : TurnTrace)
    (hne : tds ≠ [])
    (hok : runNotebookTurn model tools h0 tds = .ok trace) :
    trace.requests.map Request.tools = [some tds, none] ∧
    trace.requests.map Request.messages = [h0, trace.histories.getLastD []] := by
  obtain ⟨req1, r1, h2, hreq1, hr1, hh2, hcases⟩ :=
    runNotebookTurn_ok_spec model tools h0 tds trace hok
  have hif : (if tds.isEmpty then none else some tds) = some tds := by
    rw [if_neg]
    simp [List.isEmpty_iff, hne]
  rcases hcases with ⟨hnone, htr⟩ | ⟨tcs, hsome, hparse, htr⟩
  · subst htr
    simp [hreq1, hif]
  · subst htr
    simp [hreq1, hif]

/-- C3 witness for the amended theorem. -/
theorem C3_witness :
    demoTrace.requests.map Request.tools = [some demoToolDefs, none] ∧
    demoTrace.requests.map Request.messages
      = [demoHistory, demoTrace.histories.getLastD []] :=
  C3_rerequest_drops_tools demoModel demoTools demoHistory demoToolDefs demoTrace
    (by simp [demoToolDefs]) rfl

/-- C4 counterexample: against a model that issues a tool call on every
response, the turn still ends after one round of tool processing and two
model requests while the final response still carries tool calls — the
driver does not repeat until a tool-call-free response, and (being a
straight-line sequence with no maximum-count parameter) no configured
per-turn tool-call bound was reached. -/
theorem C4_counterexample :
    loopTurn.map (fun t =>
        (t.finalResponse.tool_calls, t.processedCalls.length, t.requests.length))
      = .ok (some [demoCall], 1, 2) ∧
    some [demoCall] ≠ (none : Option (List ToolCall)) := by
  exact ⟨rfl, by simp⟩

/-- C4 (amended): the per-turn driver terminates trivially because it performs
exactly one round of tool processing — each tool call of the first response
is executed exactly once, and tool calls in the follow-up response are never
executed — and issues exactly two model requests; the code has no configured
per-turn maximum tool-call count. -/
theorem C4_single_round (model : Request → ModelResponse)
    (tools : List (String × (JVal → JVal)))
    (h0 : List Message) (tds : List JVal) (trace : TurnTrace)
    (hok : runNotebookTurn model tools h0 tds = .ok trace) :
    trace.requests.length = 2 ∧
    trace.processedCalls.length = (trace.firstResponse.tool_calls.getD []).length := by
  obtain ⟨req1, r1, h2, hreq1, hr1, hh2, hcases⟩ :=
    runNotebookTurn_ok_spec model tools h0 tds trace hok
  rcases hcases with ⟨hnone, htr⟩ | ⟨tcs, hsome, hparse, htr⟩
  · subst htr
    simp [hnone]
  · subst htr
    simp [hsome, processedList_length]

/-- C4 witness for the amended theorem. -/
theorem C4_witness :
    loopTrace.requests.length = 2 ∧
    loopTrace.processedCalls.length
      = (loopTrace.firstResponse.tool_calls.getD []).length :=
  C4_single_round loopModel demoTools demoHistory demoToolDefs loopTrace rfl

/-- C5: processing a list of tool calls (whose argument strings parse) raises
no exception: the result is `.ok`; every call contributes exactly one
processed record and one tool message appended to the history — a call whose
tool is not among the available tools contributes the structured ToolNotFound
object in the same message form as a normal tool result — and processing
continues through all remaining calls. -/
theorem C5_tool_not_found_continues (tools : List (String × (JVal → JVal)))
    (calls : List ToolCall) (processed : List ProcessedCall)
    (history : List Message)
    (hparse : ∀ c ∈ calls, c.arguments.isSome) :
    processToolCalls tools calls processed history
      = .ok (processed ++ processedList tools calls,
             history ++ toolMessages tools calls) ∧
    (∀ c ∈ calls, alookup c.name tools = none →
      toolMessage c (toolNotFoundResult c.name) ∈ toolMessages tools calls) ∧
    (processedList tools calls).length = calls.length := by
  refine ⟨processToolCalls_ok tools calls processed history hparse, ?_,
    processedList_length tools calls⟩
  intro c hc hnone
  have hres : processOneResult tools c = toolNotFoundResult c.name := by
    unfold processOneResult
    rw [hnone]
  have hmem : toolMessage c (processOneResult tools c) ∈ toolMessages tools calls :=
    List.mem_map_of_mem _ hc
  rw [hres] at hmem
  exact hmem

/-- C5 witness: one known call and one unknown-tool call. -/
theorem C5_witness :
    processToolCalls demoTools [demoCall, unknownCall] [] demoHistory
      = .ok ([] ++ processedList demoTools [demoCall, unknownCall],
             demoHistory ++ toolMessages demoTools [demoCall, unknownCall]) ∧
    (∀ c ∈ [demoCall, unknownCall], alookup c.name demoTools = none →
      toolMessage c (toolNotFoundResult c.name)
        ∈ toolMessages demoTools [demoCall, unknownCall]) ∧
    (processedList demoTools [demoCall, unknownCall]).length
      = [demoCall, unknownCall].length :=
  C5_tool_not_found_continues demoTools [demoCall, unknownCall] [] demoHistory
    (by simp [demoCall, unknownCall])

/-- C6: within one turn run the successive values of the message history form
an append-only chain starting from the initial history (entries are only ever
added, never removed or modified), and the final history — the one the next
model request is issued over — is the initial history, then the assistant
message that carried the tool calls, then immediately the tool-result
messages. -/
theorem C6_history_append_only (model : Request → ModelResponse)
    (tools : List (String × (JVal → JVal)))
    (h0 : List Message) (tds : List JVal) (trace : TurnTrace)
    (hok : runNotebookTurn model tools h0 tds = .ok trace) :
    List.Chain' (fun h h' => ∃ suffix, h' = h ++ suffix) trace.histories ∧
    trace.histories.head? = some h0 ∧
    (trace.requests.map Request.messages).getLast? = some (trace.histories.getLastD []) ∧
    (∀ tcs, trace.firstResponse.tool_calls = some tcs →
      trace.histories.getLastD []
        = h0 ++ [assistantMessage trace.firstResponse] ++ toolMessages tools tcs) ∧
    (trace.firstResponse.tool_calls = none →
      trace.histories.getLastD [] = h0 ++ [assistantMessage trace.firstResponse]) := by
  obtain ⟨req1, r1, h2, hreq1, hr1, hh2, hcases⟩ :=
    runNotebookTurn_ok_spec model tools h0 tds trace hok
  rcases hcases with ⟨hnone, htr⟩ | ⟨tcs, hsome, hparse, htr⟩
  · subst htr
    refine ⟨?_, rfl, by simp [hh2], ?_, ?_⟩
    · simp only [List.chain'_cons, List.chain'_singleton, and_true]
      exact ⟨[assistantMessage r1], hh2⟩
    · intro tcs' htcs'
      rw [hnone] at htcs'
      cases htcs'
    · intro _
      simp [hh2]
  · subst htr
    refine ⟨?_, rfl, by simp [hh2], ?_, ?_⟩
    · simp only [List.chain'_cons, List.chain'_singleton, and_true]
      exact ⟨⟨[assistantMessage r1], hh2⟩, ⟨toolMessages tools tcs, rfl⟩⟩
    · intro tcs' htcs'
      rw [hsome] at htcs'
      cases htcs'
      simp [hh2]
    · intro hcontra
      rw [hsome] at hcontra
      cases hcontra

/-- C6 witness at the concrete demo turn. -/
theorem C6_witness :
    List.Chain' (fun h h' => ∃ suffix, h' = h ++ suffix) loopTrace.histories ∧
    loopTrace.histories.head? = some demoHistory ∧
    (loopTrace.requests.map Request.messages).getLast?
      = some (loopTrace.histories.getLastD []) ∧
    (∀ tcs, loopTrace.firstResponse.tool_calls = some tcs →
      loopTrace.histories.getLastD []
        = demoHistory ++ [assistantMessage loopTrace.firstResponse]
            ++ toolMessages demoTools tcs) ∧
    (loopTrace.firstResponse.tool_calls = none →
      loopTrace.histories.getLastD []
        = demoHistory ++ [assistantMessage loopTrace.firstResponse]) :=
  C6_history_append_only loopModel demoTools demoHistory demoToolDefs loopTrace rfl

/-- A concrete property object carrying a `required` key. -/
def demoPropDict : JVal :=
  .dict [("type", .str "string"), ("required", .str "true")]

/-- A concrete tool-definition list in OpenAI function format (the shape
`get_definition` produces); the `parameters.required` array must survive
while `properties.industry.required` must be removed. -/
def demoJTree : JVal :=
  .arr [.dict [("type", .str "function"),
    ("function", .dict [("name", .str "product_catalog"),
      ("parameters", .dict [("type", .str "object"),
        ("properties", .dict [("industry", demoPropDict)]),
        ("required", .arr [.str "industry"])])])]]

/-- A concrete heap holding `demoJTree`. -/
def demoHeap : Heap := (allocTree [] demoJTree).1

/-- The value rooting `demoJTree` inside `demoHeap`. -/
def demoRoot : PyVal := (allocTree [] demoJTree).2

/-! ### Heap-model lemmas -/

theorem PyVal.belowB_mono {m n : Nat} (hmn : m ≤ n) :
    ∀ {v : PyVal}, v.belowB m = true → v.belowB n = true := by
  intro v
  cases v with
  | str s => intro _; rfl
  | ref a =>
    intro hv
    simp only [PyVal.belowB, decide_eq_true_eq] at *
    omega

theorem heapWFAux_lookup :
    ∀ (rest : List PyObj) (start : Nat), heapWFAux start rest = true →
      ∀ (i : Nat) (cell : PyObj), rest[i]? = some cell →
        cell.belowB (start + i) = true := by
  intro rest
  induction rest with
  | nil => intro start _ i cell hc; simp at hc
  | cons c rest ih =>
    intro start hwf i cell hc
    rw [heapWFAux, Bool.and_eq_true] at hwf
    cases i with
    | zero =>
      simp only [List.getElem?_cons_zero, Option.some.injEq] at hc
      subst hc
      simpa using hwf.1
    | succ j =>
      simp only [List.getElem?_cons_succ] at hc
      have := ih (start + 1) hwf.2 j cell hc
      have harith : start + 1 + j = start + (j + 1) := by omega
      rwa [harith] at this

/-- A wellformed heap is down-closed: each cell refers below its address. -/
theorem Heap.wf_lookup {h : Heap} (hwf : h.wf = true) :
    ∀ (a : Nat) (cell : PyObj), h[a]? = some cell → cell.belowB a = true := by
  intro a cell hc
  have := heapWFAux_lookup h 0 hwf a cell hc
  simpa using this

/-- Reads are determined by the cells below `n` when the start value and the
heap (on that region) are, by down-closedness. -/
theorem readVal_agree (h h₂ : Heap) (n : Nat)
    (hagree : ∀ a, a < n → h₂[a]? = h[a]?)
    (hdcb : ∀ a, a < n → ∀ cell, h[a]? = some cell → cell.belowB a = true) :
    ∀ (fuel : Nat) (v : PyVal), v.belowB n = true →
      readVal h₂ fuel v = readVal h fuel v := by
  intro fuel
  induction fuel with
  | zero =>
    intro v _
    cases v <;> rfl
  | succ f ih =>
    intro v hv
    cases v with
    | str s => rfl
    | ref a =>
      have ha : a < n := by simpa [PyVal.belowB] using hv
      rw [readVal, readVal, hagree a ha]
      cases hcell : h[a]? with
      | none => rfl
      | some cell =>
        have hbelow := hdcb a ha cell hcell
        cases cell with
        | dict es =>
          simp only [PyObj.belowB, List.all_eq_true] at hbelow
          simp only []
          congr 1
          apply List.map_congr_left
          intro p hp
          have : p.2.belowB n = true :=
            PyVal.belowB_mono (Nat.le_of_lt ha) (hbelow p hp)
          rw [ih p.2 this]
        | list vs =>
          simp only [PyObj.belowB, List.all_eq_true] at hbelow
          simp only []
          congr 1
          apply List.map_congr_left
          intro w hw
          have : w.belowB n = true :=
            PyVal.belowB_mono (Nat.le_of_lt ha) (hbelow w hw)
          rw [ih w this]

/-- Encodings transfer to any heap agreeing on the region, with widened
bounds. -/
theorem Encodes_transfer (h h₂ : Heap) :
    ∀ hi lo v t lo' hi',
      Encodes h lo hi v t →
      (∀ a, lo ≤ a → a < hi → h₂[a]? = h[a]?) →
      lo' ≤ lo → hi ≤ hi' →
      Encodes h₂ lo' hi' v t := by
  intro hi
  induction hi using Nat.strong_induction_on with
  | _ hi ih =>
    intro lo v t lo' hi' hE hagree hlo hhi
    cases t with
    | str s => exact hE
    | arr ts =>
      obtain ⟨a, vs, rfl, hloa, hahi, hcell, hlist⟩ := hE
      refine ⟨a, vs, rfl, Nat.le_trans hlo hloa, Nat.lt_of_lt_of_le hahi hhi,
        by rw [hagree a hloa hahi, hcell], ?_⟩
      have haux : ∀ (ts : List JVal) (vs : List PyVal) (l₁ l₁' : Nat),
          EncodesList h l₁ a vs ts → lo ≤ l₁ → l₁' ≤ l₁ →
          EncodesList h₂ l₁' a vs ts := by
        intro ts
        induction ts with
        | nil =>
          intro vs l₁ l₁' hE1 _ _
          cases vs with
          | nil => exact trivial
          | cons v vs => exact absurd hE1 (by simp [EncodesList])
        | cons t ts ihts =>
          intro vs l₁ l₁' hE1 hl₁ hl₁'
          cases vs with
          | nil => exact absurd hE1 (by simp [EncodesList])
          | cons v vs =>
            obtain ⟨mid, hlm, hmid, hhead, htail⟩ := hE1
            refine ⟨mid, Nat.le_trans hl₁' hlm, hmid, ?_, ?_⟩
            · refine ih mid (Nat.lt_of_le_of_lt hmid hahi) l₁ v t l₁' mid hhead
                ?_ hl₁' le_rfl
              intro b hb1 hb2
              exact hagree b (Nat.le_trans hl₁ hb1)
                (Nat.lt_of_lt_of_le (Nat.lt_of_lt_of_le hb2 hmid) (Nat.le_of_lt hahi))
            · exact ihts vs mid mid htail (Nat.le_trans hl₁ hlm) le_rfl
      exact haux ts vs lo lo' hlist le_rfl hlo
    | dict ds =>
      obtain ⟨a, ps, rfl, hloa, hahi, hcell, hentries⟩ := hE
      refine ⟨a, ps, rfl, Nat.le_trans hlo hloa, Nat.lt_of_lt_of_le hahi hhi,
        by rw [hagree a hloa hahi, hcell], ?_⟩
      have haux : ∀ (ds : List (String × JVal)) (ps : List (String × PyVal))
          (l₁ l₁' : Nat),
          EncodesEntries h l₁ a ps ds → lo ≤ l₁ → l₁' ≤ l₁ →
          EncodesEntries h₂ l₁' a ps ds := by
        intro ds
        induction ds with
        | nil =>
          intro ps l₁ l₁' hE1 _ _
          cases ps with
          | nil => exact trivial
          | cons p ps => exact absurd hE1 (by simp [EncodesEntries])
        | cons d ds ihds =>
          intro ps l₁ l₁' hE1 hl₁ hl₁'
          cases ps with
          | nil => exact absurd hE1 (by simp [EncodesEntries])
          | cons p ps =>
            obtain ⟨hk, mid, hlm, hmid, hhead, htail⟩ := hE1
            refine ⟨hk, mid, Nat.le_trans hl₁' hlm, hmid, ?_, ?_⟩
            · refine ih mid (Nat.lt_of_le_of_lt hmid hahi) l₁ p.2 d.2 l₁' mid hhead
                ?_ hl₁' le_rfl
              intro b hb1 hb2
              exact hagree b (Nat.le_trans hl₁ hb1)
                (Nat.lt_of_lt_of_le (Nat.lt_of_lt_of_le hb2 hmid) (Nat.le_of_lt hahi))
            · exact ihds ps mid mid htail (Nat.le_trans hl₁ hlm) le_rfl
      exact haux ds ps lo lo' hentries le_rfl hlo

/-- The list form of `Encodes_transfer`. -/
theorem EncodesList_transfer (h h₂ : Heap) :
    ∀ (ts : List JVal) (vs : List PyVal) (lo hi lo' hi' : Nat),
      EncodesList h lo hi vs ts →
      (∀ a, lo ≤ a → a < hi → h₂[a]? = h[a]?) →
      lo' ≤ lo → hi ≤ hi' →
      EncodesList h₂ lo' hi' vs ts := by
  intro ts
  induction ts with
  | nil =>
    intro vs lo hi lo' hi' hE _ _ _
    cases vs with
    | nil => exact trivial
    | cons v vs => exact absurd hE (by simp [EncodesList])
  | cons t ts ihts =>
    intro vs lo hi lo' hi' hE hagree hlo hhi
    cases vs with
    | nil => exact absurd hE (by simp [EncodesList])
    | cons v vs =>
      obtain ⟨mid, hlm, hmid, hhead, htail⟩ := hE
      refine ⟨mid, Nat.le_trans hlo hlm, Nat.le_trans hmid hhi, ?_, ?_⟩
      · exact Encodes_transfer h h₂ mid lo v t lo' mid hhead
          (fun b hb1 hb2 => hagree b hb1 (Nat.lt_of_lt_of_le hb2 hmid)) hlo le_rfl
      · exact ihts vs mid hi mid hi' htail
          (fun b hb1 hb2 => hagree b (Nat.le_trans hlm hb1) hb2) le_rfl hhi

/-- The entries form of `Encodes_transfer`. -/
theorem EncodesEntries_transfer (h h₂ : Heap) :
    ∀ (ds : List (String × JVal)) (ps : List (String × PyVal)) (lo hi lo' hi' : Nat),
      EncodesEntries h lo hi ps ds →
      (∀ a, lo ≤ a → a < hi → h₂[a]? = h[a]?) →
      lo' ≤ lo → hi ≤ hi' →
      EncodesEntries h₂ lo' hi' ps ds := by
  intro ds
  induction ds with
  | nil =>
    intro ps lo hi lo' hi' hE _ _ _
    cases ps with
    | nil => exact trivial
    | cons p ps => exact absurd hE (by simp [EncodesEntries])
  | cons d ds ihds =>
    intro ps lo hi lo' hi' hE hagree hlo hhi
    cases ps with
    | nil => exact absurd hE (by simp [EncodesEntries])
    | cons p ps =>
      obtain ⟨hk, mid, hlm, hmid, hhead, htail⟩ := hE
      refine ⟨hk, mid, Nat.le_trans hlo hlm, Nat.le_trans hmid hhi, ?_, ?_⟩
      · exact Encodes_transfer h h₂ mid lo p.2 d.2 lo' mid hhead
          (fun b hb1 hb2 => hagree b hb1 (Nat.lt_of_lt_of_le hb2 hmid)) hlo le_rfl
      · exact ihds ps mid hi mid hi' htail
          (fun b hb1 hb2 => hagree b (Nat.le_trans hlm hb1) hb2) le_rfl hhi

/-- On the region it describes, an encoding determines the read: any fuel at
least the region's upper bound reads the encoded tree back. -/
theorem Encodes_readVal (h : Heap) :
    ∀ hi lo v t, Encodes h lo hi v t → ∀ fuel, hi ≤ fuel → readVal h fuel v = t := by
  intro hi
  induction hi using Nat.strong_induction_on with
  | _ hi ih =>
    intro lo v t hE fuel hfuel
    cases t with
    | str s =>
      rw [hE]
      cases fuel <;> rfl
    | arr ts =>
      obtain ⟨a, vs, rfl, hloa, hahi, hcell, hlist⟩ := hE
      obtain ⟨f, rfl⟩ : ∃ f, fuel = f + 1 := ⟨fuel - 1, by omega⟩
      rw [readVal, hcell]
      dsimp only
      have haux : ∀ (ts : List JVal) (vs : List PyVal) (l₁ : Nat),
          EncodesList h l₁ a vs ts → vs.map (fun w => readVal h f w) = ts := by
        intro ts
        induction ts with
        | nil =>
          intro vs l₁ hE1
          cases vs with
          | nil => rfl
          | cons v vs => exact absurd hE1 (by simp [EncodesList])
        | cons t ts ihts =>
          intro vs l₁ hE1
          cases vs with
          | nil => exact absurd hE1 (by simp [EncodesList])
          | cons v vs =>
            obtain ⟨mid, hlm, hmid, hhead, htail⟩ := hE1
            simp only [List.map_cons]
            rw [ih mid (Nat.lt_of_le_of_lt hmid hahi) l₁ v t hhead f (by omega),
              ihts vs mid htail]
      rw [haux ts vs lo hlist]
    | dict ds =>
      obtain ⟨a, ps, rfl, hloa, hahi, hcell, hentries⟩ := hE
      obtain ⟨f, rfl⟩ : ∃ f, fuel = f + 1 := ⟨fuel - 1, by omega⟩
      rw [readVal, hcell]
      dsimp only
      have haux : ∀ (ds : List (String × JVal)) (ps : List (String × PyVal)) (l₁ : Nat),
          EncodesEntries h l₁ a ps ds →
          ps.map (fun p => (p.1, readVal h f p.2)) = ds := by
        intro ds
        induction ds with
        | nil =>
          intro ps l₁ hE1
          cases ps with
          | nil => rfl
          | cons p ps => exact absurd hE1 (by simp [EncodesEntries])
        | cons d ds ihds =>
          intro ps l₁ hE1
          cases ps with
          | nil => exact absurd hE1 (by simp [EncodesEntries])
          | cons p ps =>
            obtain ⟨hk, mid, hlm, hmid, hhead, htail⟩ := hE1
            simp only [List.map_cons]
            rw [ih mid (Nat.lt_of_le_of_lt hmid hahi) l₁ p.2 d.2 hhead f (by omega),
              ihds ps mid htail, hk]
      rw [haux ds ps lo hentries]

/-- Heap extension preserves old cells. -/
theorem getElem?_extend {h Δ : Heap} {a : Nat} (ha : a < h.length) :
    (h ++ Δ)[a]? = h[a]? :=
  List.getElem?_append_left ha

mutual

/-- Allocation extends the heap and the returned value encodes the tree
exactly on the fresh region. -/
theorem allocTree_spec : ∀ (t : JVal) (h : Heap),
    (∃ Δ, (allocTree h t).1 = h ++ Δ) ∧
    Encodes (allocTree h t).1 h.length (allocTree h t).1.length (allocTree h t).2 t := by
  intro t h
  cases t with
  | str s =>
    constructor
    · exact ⟨[], by simp [allocTree]⟩
    · simp [allocTree, Encodes]
  | arr ts =>
    obtain ⟨⟨Δ₁, hext⟩, hlist⟩ := allocList_spec ts h
    have hlen : h.length ≤ (allocList h ts).1.length := by
      rw [hext]; simp
    constructor
    · refine ⟨Δ₁ ++ [.list (allocList h ts).2], ?_⟩
      simp only [allocTree]
      rw [hext, List.append_assoc]
    · simp only [allocTree, Encodes]
      refine ⟨(allocList h ts).1.length, (allocList h ts).2, rfl, hlen, by simp, ?_, ?_⟩
      · rw [List.getElem?_concat_length]
      · exact EncodesList_transfer _ _ ts _ _ _ _ _ hlist
          (fun b _ hb2 => getElem?_extend hb2) le_rfl le_rfl
  | dict es =>
    obtain ⟨⟨Δ₁, hext⟩, hentries⟩ := allocEntries_spec es h
    have hlen : h.length ≤ (allocEntries h es).1.length := by
      rw [hext]; simp
    constructor
    · refine ⟨Δ₁ ++ [.dict (allocEntries h es).2], ?_⟩
      simp only [allocTree]
      rw [hext, List.append_assoc]
    · simp only [allocTree, Encodes]
      refine ⟨(allocEntries h es).1.length, (allocEntries h es).2, rfl, hlen, by simp, ?_, ?_⟩
      · rw [List.getElem?_concat_length]
      · exact EncodesEntries_transfer _ _ es _ _ _ _ _ hentries
          (fun b _ hb2 => getElem?_extend hb2) le_rfl le_rfl

theorem allocList_spec : ∀ (ts : List JVal) (h : Heap),
    (∃ Δ, (allocList h ts).1 = h ++ Δ) ∧
    EncodesList (allocList h ts).1 h.length (allocList h ts).1.length
      (allocList h ts).2 ts := by
  intro ts h
  cases ts with
  | nil =>
    constructor
    · exact ⟨[], by simp [allocList]⟩
    · simp [allocList, EncodesList]
  | cons t ts =>
    obtain ⟨⟨Δ₁, hext₁⟩, hhead⟩ := allocTree_spec t h
    obtain ⟨⟨Δ₂, hext₂⟩, htail⟩ := allocList_spec ts (allocTree h t).1
    have hlen₁ : h.length ≤ (allocTree h t).1.length := by
      rw [hext₁]; simp
    have hlen₂ : (allocTree h t).1.length ≤ (allocList (allocTree h t).1 ts).1.length := by
      rw [hext₂]; simp
    constructor
    · refine ⟨Δ₁ ++ Δ₂, ?_⟩
      simp only [allocList]
      rw [hext₂, hext₁, List.append_assoc]
    · simp only [allocList, EncodesList]
      refine ⟨(allocTree h t).1.length, hlen₁, hlen₂, ?_, htail⟩
      refine Encodes_transfer _ _ _ _ _ _ _ _ hhead ?_ le_rfl le_rfl
      intro b _ hb2
      rw [hext₂]
      exact getElem?_extend hb2

theorem allocEntries_spec : ∀ (es : List (String × JVal)) (h : Heap),
    (∃ Δ, (allocEntries h es).1 = h ++ Δ) ∧
    EncodesEntries (allocEntries h es).1 h.length (allocEntries h es).1.length
      (allocEntries h es).2 es := by
  intro es h
  cases es with
  | nil =>
    constructor
    · exact ⟨[], by simp [allocEntries]⟩
    · simp [allocEntries, EncodesEntries]
  | cons e es =>
    obtain ⟨⟨Δ₁, hext₁⟩, hhead⟩ := allocTree_spec e.2 h
    obtain ⟨⟨Δ₂, hext₂⟩, htail⟩ := allocEntries_spec es (allocTree h e.2).1
    have hlen₁ : h.length ≤ (allocTree h e.2).1.length := by
      rw [hext₁]; simp
    have hlen₂ : (allocTree h e.2).1.length
        ≤ (allocEntries (allocTree h e.2).1 es).1.length := by
      rw [hext₂]; simp
    constructor
    · refine ⟨Δ₁ ++ Δ₂, ?_⟩
      simp only [allocEntries]
      rw [hext₂, hext₁, List.append_assoc]
    · simp only [allocEntries, EncodesEntries]
      refine ⟨by trivial, (allocTree h e.2).1.length, hlen₁, hlen₂, ?_, htail⟩
      refine Encodes_transfer _ _ _ _ _ _ _ _ hhead ?_ le_rfl le_rfl
      intro b _ hb2
      rw [hext₂]
      exact getElem?_extend hb2

end

/-- Key correspondence of entry encodings: a key absent on the heap side is
absent on the tree side. -/
theorem EncodesEntries_alookup_none (h : Heap) (k : String) :
    ∀ (ds : List (String × JVal)) (ps : List (String × PyVal)) (lo hi : Nat),
      EncodesEntries h lo hi ps ds → alookup k ps = none → alookup k ds = none := by
  intro ds
  induction ds with
  | nil =>
    intro ps lo hi hE _
    cases ps with
    | nil => rfl
    | cons p ps => exact absurd hE (by simp [EncodesEntries])
  | cons d ds ihds =>
    intro ps lo hi hE hnone
    cases ps with
    | nil => exact absurd hE (by simp [EncodesEntries])
    | cons p ps =>
      obtain ⟨hk, mid, hlm, hmid, hhead, htail⟩ := hE
      rw [alookup] at hnone ⊢
      by_cases hpk : p.1 = k
      · rw [if_pos hpk] at hnone
        cases hnone
      · rw [if_neg hpk] at hnone
        rw [if_neg (hk ▸ hpk)]
        exact ihds ps mid hi htail hnone

theorem filter_of_alookup_none (k : String) :
    ∀ (l : List (String × JVal)), alookup k l = none →
      l.filter (fun p => !(p.1 == k)) = l := by
  intro l
  induction l with
  | nil => intro _; rfl
  | cons p l ih =>
    intro hnone
    rw [alookup] at hnone
    by_cases hpk : p.1 = k
    · rw [if_pos hpk] at hnone
      cases hnone
    · rw [if_neg hpk] at hnone
      have hb : (p.1 == k) = false := by simpa using hpk
      rw [List.filter_cons, hb]
      simp [ih hnone]

theorem updateAt_of_alookup_none (k : String) (f : JVal → JVal) :
    ∀ (l : List (String × JVal)), alookup k l = none → updateAt k f l = l := by
  intro l
  induction l with
  | nil => intro _; rfl
  | cons p l ih =>
    intro hnone
    rw [alookup] at hnone
    by_cases hpk : p.1 = k
    · rw [if_pos hpk] at hnone
      cases hnone
    · rw [if_neg hpk] at hnone
      rw [updateAt]
      simp only [beq_iff_eq, hpk, if_false]
      rw [ih hnone]

/-- Filtering a key out of corresponding entries preserves the encoding. -/
theorem EncodesEntries_filter (h : Heap) (k : String) :
    ∀ (ds : List (String × JVal)) (ps : List (String × PyVal)) (lo hi : Nat),
      EncodesEntries h lo hi ps ds →
      EncodesEntries h lo hi (ps.filter (fun p => !(p.1 == k)))
        (ds.filter (fun p => !(p.1 == k))) := by
  intro ds
  induction ds with
  | nil =>
    intro ps lo hi hE
    cases ps with
    | nil => exact trivial
    | cons p ps => exact absurd hE (by simp [EncodesEntries])
  | cons d ds ihds =>
    intro ps lo hi hE
    cases ps with
    | nil => exact absurd hE (by simp [EncodesEntries])
    | cons p ps =>
      obtain ⟨hk, mid, hlm, hmid, hhead, htail⟩ := hE
      rw [List.filter_cons, List.filter_cons]
      by_cases hpk : p.1 = k
      · have hdk : d.1 = k := hk ▸ hpk
        have hb1 : (p.1 == k) = true := by simpa using hpk
        have hb2 : (d.1 == k) = true := by simpa using hdk
        rw [hb1, hb2]
        simp only [Bool.not_true, Bool.false_eq_true, if_false]
        exact EncodesEntries_transfer h h (ds.filter _) (ps.filter _) mid hi lo hi
          (ihds ps mid hi htail) (fun _ _ _ => rfl) hlm le_rfl
      · have hdk : ¬ d.1 = k := hk ▸ hpk
        have hb1 : (p.1 == k) = false := by simpa using hpk
        have hb2 : (d.1 == k) = false := by simpa using hdk
        rw [hb1, hb2]
        simp only [Bool.not_false, if_true]
        exact ⟨hk, mid, hlm, hmid, hhead, ihds ps mid hi htail⟩

/-- Lemma: `delRequired` mutates only inside the region of the dict it is given, and
turns its encoded tree into `stripProp` of it. -/
theorem delRequired_spec (h : Heap) (lo hi : Nat) (pv : PyVal) (tv : JVal)
    (hE : Encodes h lo hi pv tv) (hdict : isDict tv = true) :
    (delRequired h pv).length = h.length ∧
    (∀ b, b < lo ∨ hi ≤ b → (delRequired h pv)[b]? = h[b]?) ∧
    Encodes (delRequired h pv) lo hi pv (stripProp tv) := by
  cases tv with
  | str s => cases hdict
  | arr ts => cases hdict
  | dict ds =>
    obtain ⟨a, ps, rfl, hloa, hahi, hcell, hentries⟩ := hE
    have halen : a < h.length := by
      by_contra hcon
      rw [List.getElem?_eq_none (by omega)] at hcell
      cases hcell
    have hproc : delRequired h (.ref a)
        = if (alookup "required" ps).isSome then
            h.set a (.dict (ps.filter (fun p => !(p.1 == "required"))))
          else h := by
      simp only [delRequired, hcell]
    by_cases hreq : (alookup "required" ps).isSome
    · rw [hproc, if_pos hreq]
      refine ⟨by simp, ?_, ?_⟩
      · intro b hb
        apply List.getElem?_set_ne
        rcases hb with hb | hb <;> omega
      · refine ⟨a, ps.filter (fun p => !(p.1 == "required")), rfl, hloa, hahi, ?_, ?_⟩
        · rw [List.getElem?_set_self halen]
        · refine EncodesEntries_transfer h _ _ _ lo a lo a
            (EncodesEntries_filter h "required" ds ps lo a hentries) ?_ le_rfl le_rfl
          intro b _ hb2
          exact List.getElem?_set_ne (show a ≠ b by omega)
    · rw [hproc, if_neg hreq]
      have hnone : alookup "required" ps = none := by
        cases hlk : alookup "required" ps with
        | none => rfl
        | some w => rw [hlk] at hreq; simp at hreq
      have hdnone := EncodesEntries_alookup_none h "required" ds ps lo a hentries hnone
      refine ⟨rfl, fun b _ => rfl, ?_⟩
      rw [show stripProp (.dict ds) = .dict (ds.filter (fun p => !(p.1 == "required"))) from rfl,
        filter_of_alookup_none "required" ds hdnone]
      exact ⟨a, ps, rfl, hloa, hahi, hcell, hentries⟩

/-- Folding `delRequired` over all entry values of a properties dict strips
`required` from every property tree, mutating only inside the region. -/
theorem delRequired_fold_spec :
    ∀ (ds : List (String × JVal)) (ps : List (String × PyVal)) (lo hi : Nat) (h : Heap),
      EncodesEntries h lo hi ps ds →
      (∀ d ∈ ds, isDict d.2 = true) →
      (ps.foldl (fun hh p => delRequired hh p.2) h).length = h.length ∧
      (∀ b, b < lo ∨ hi ≤ b →
        (ps.foldl (fun hh p => delRequired hh p.2) h)[b]? = h[b]?) ∧
      EncodesEntries (ps.foldl (fun hh p => delRequired hh p.2) h) lo hi ps
        (ds.map (fun d => (d.1, stripProp d.2))) := by
  intro ds
  induction ds with
  | nil =>
    intro ps lo hi h hE _
    cases ps with
    | nil => exact ⟨rfl, fun b _ => rfl, trivial⟩
    | cons p ps => exact absurd hE (by simp [EncodesEntries])
  | cons d ds ihds =>
    intro ps lo hi h hE hdicts
    cases ps with
    | nil => exact absurd hE (by simp [EncodesEntries])
    | cons p ps =>
      obtain ⟨hk, mid, hlm, hmid, hhead, htail⟩ := hE
      obtain ⟨hlen₁, hframe₁, hE₁⟩ :=
        delRequired_spec h lo mid p.2 d.2 hhead (hdicts d (List.mem_cons_self _ _))
      have htail₁ : EncodesEntries (delRequired h p.2) mid hi ps ds :=
        EncodesEntries_transfer h _ ds ps mid hi mid hi htail
          (fun b hb1 _ => hframe₁ b (Or.inr hb1)) le_rfl le_rfl
      obtain ⟨hlen₂, hframe₂, hE₂⟩ := ihds ps mid hi (delRequired h p.2) htail₁
        (fun e he => hdicts e (List.mem_cons_of_mem _ he))
      rw [List.foldl_cons]
      refine ⟨by rw [hlen₂, hlen₁], ?_, ?_⟩
      · intro b hb
        have hb₂ : b < mid ∨ hi ≤ b := by
          rcases hb with hb | hb
          · exact Or.inl (by omega)
          · exact Or.inr hb
        have hb₁ : b < lo ∨ mid ≤ b := by
          rcases hb with hb | hb
          · exact Or.inl hb
          · exact Or.inr (by omega)
        rw [hframe₂ b hb₂, hframe₁ b hb₁]
      · refine ⟨hk, mid, hlm, hmid, ?_, hE₂⟩
        refine Encodes_transfer _ _ mid lo p.2 (stripProp d.2) lo mid hE₁ ?_ le_rfl le_rfl
        intro b hb1 hb2
        exact hframe₂ b (Or.inl hb2)

/-- The property loop of the source: on a wellformed properties object it
strips `required` from every property, mutating only inside the region. -/
theorem procProps_spec (h : Heap) (lo hi : Nat) (pv : PyVal) (tv : JVal)
    (hE : Encodes h lo hi pv tv) (hwf : propsWF tv = true) :
    (procProps h pv).length = h.length ∧
    (∀ b, b < lo ∨ hi ≤ b → (procProps h pv)[b]? = h[b]?) ∧
    Encodes (procProps h pv) lo hi pv (stripProps tv) := by
  cases tv with
  | str s => cases hwf
  | arr ts => cases hwf
  | dict ds =>
    obtain ⟨a, ps, rfl, hloa, hahi, hcell, hentries⟩ := hE
    have hdicts : ∀ d ∈ ds, isDict d.2 = true := by
      intro d hd
      have := hwf
      simp only [propsWF, List.all_eq_true] at this
      exact this d hd
    have hproc : procProps h (.ref a) = ps.foldl (fun hh p => delRequired hh p.2) h := by
      simp only [procProps, hcell]
    obtain ⟨hlen, hframe, hE₂⟩ := delRequired_fold_spec ds ps lo a h hentries hdicts
    rw [hproc]
    refine ⟨hlen, ?_, ?_⟩
    · intro b hb
      refine hframe b ?_
      rcases hb with hb | hb
      · exact Or.inl hb
      · exact Or.inr (by omega)
    · refine ⟨a, ps, rfl, hloa, hahi, ?_, hE₂⟩
      exact hframe a (Or.inr le_rfl) ▸ hcell

/-- The generic `.get(k, {})`-chaining step: if the inner mutation turns the
tree under `k` into `treeF` of it (mutating only its own region), then
`procAtKey k inner` turns the whole tree into `stripAtKey k treeF` of it
(mutating only the region). -/
theorem procAtKey_spec (k : String) (inner : Heap → PyVal → Heap)
    (treeF : JVal → JVal) (innerWF : JVal → Bool)
    (hinner : ∀ (hh : Heap) (lo hi : Nat) (pv : PyVal) (tv : JVal),
      Encodes hh lo hi pv tv → innerWF tv = true →
      (inner hh pv).length = hh.length ∧
      (∀ b, b < lo ∨ hi ≤ b → (inner hh pv)[b]? = hh[b]?) ∧
      Encodes (inner hh pv) lo hi pv (treeF tv)) :
    ∀ (h : Heap) (lo hi : Nat) (v : PyVal) (t : JVal),
      Encodes h lo hi v t → atKeyWF k innerWF t = true →
      (procAtKey k inner h v).length = h.length ∧
      (∀ b, b < lo ∨ hi ≤ b → (procAtKey k inner h v)[b]? = h[b]?) ∧
      Encodes (procAtKey k inner h v) lo hi v (stripAtKey k treeF t) := by
  intro h lo hi v t hE hwf
  cases t with
  | str s =>
    rw [show v = .str s from hE]
    exact ⟨rfl, fun b _ => rfl, rfl⟩
  | arr ts =>
    obtain ⟨a, vs, rfl, hloa, hahi, hcell, hlist⟩ := hE
    have hproc : procAtKey k inner h (.ref a) = h := by
      simp only [procAtKey, getKeyD, hcell]
    rw [hproc]
    exact ⟨rfl, fun b _ => rfl, ⟨a, vs, rfl, hloa, hahi, hcell, hlist⟩⟩
  | dict ds =>
    obtain ⟨a, ps, rfl, hloa, hahi, hcell, hentries⟩ := hE
    have hproc : procAtKey k inner h (.ref a)
        = match alookup k ps with
          | some pv => inner h pv
          | none => h := by
      simp only [procAtKey, getKeyD, hcell]
    have hwf' : ∀ tv, alookup k ds = some tv → innerWF tv = true := by
      intro tv htv
      simp only [atKeyWF, htv] at hwf
      exact hwf
    have main : ∀ (ds : List (String × JVal)) (ps : List (String × PyVal))
        (lo₁ hi₁ : Nat),
        EncodesEntries h lo₁ hi₁ ps ds →
        (∀ tv, alookup k ds = some tv → innerWF tv = true) →
        ((match alookup k ps with | some pv => inner h pv | none => h) :
            Heap).length = h.length ∧
        (∀ b, b < lo₁ ∨ hi₁ ≤ b →
          ((match alookup k ps with | some pv => inner h pv | none => h) :
            Heap)[b]? = h[b]?) ∧
        EncodesEntries
          ((match alookup k ps with | some pv => inner h pv | none => h) : Heap)
          lo₁ hi₁ ps (updateAt k treeF ds) := by
      intro ds
      induction ds with
      | nil =>
        intro ps lo₁ hi₁ hE1 _
        cases ps with
        | nil => exact ⟨rfl, fun b _ => rfl, trivial⟩
        | cons p ps => exact absurd hE1 (by simp [EncodesEntries])
      | cons d ds ihds =>
        intro ps lo₁ hi₁ hE1 hwf1
        cases ps with
        | nil => exact absurd hE1 (by simp [EncodesEntries])
        | cons p ps =>
          obtain ⟨hk, mid, hlm, hmid, hhead, htail⟩ := hE1
          by_cases hpk : p.1 = k
          · have hdk : d.1 = k := hk ▸ hpk
            have hlkp : alookup k ((p.1, p.2) :: ps) = some p.2 := by
              rw [alookup, if_pos hpk]
            have hlkd : alookup k (d :: ds) = some d.2 := by
              rw [alookup, if_pos hdk]
            have hupd : updateAt k treeF (d :: ds) = (d.1, treeF d.2) :: ds := by
              rw [updateAt]
              simp only [show (d.1 == k) = true by simpa using hdk, if_true]
            obtain ⟨hlen₁, hframe₁, hE₁⟩ :=
              hinner h lo₁ mid p.2 d.2 hhead (hwf1 d.2 hlkd)
            rw [show ((p.1, p.2) : String × PyVal) = p from rfl] at hlkp
            rw [hlkp, hupd]
            refine ⟨hlen₁, ?_, ?_⟩
            · intro b hb
              refine hframe₁ b ?_
              rcases hb with hb | hb
              · exact Or.inl hb
              · exact Or.inr (by omega)
            · refine ⟨hk, mid, hlm, hmid, hE₁, ?_⟩
              exact EncodesEntries_transfer h _ ds ps mid hi₁ mid hi₁ htail
                (fun b hb1 _ => hframe₁ b (Or.inr hb1)) le_rfl le_rfl
          · have hdk : ¬ d.1 = k := hk ▸ hpk
            have hlkp : alookup k ((p.1, p.2) :: ps) = alookup k ps := by
              rw [alookup, if_neg hpk]
            have hlkd : alookup k (d :: ds) = alookup k ds := by
              rw [alookup, if_neg hdk]
            have hupd : updateAt k treeF (d :: ds) = d :: updateAt k treeF ds := by
              rw [updateAt]
              simp only [show (d.1 == k) = false by simpa using hdk,
                Bool.false_eq_true, if_false]
            obtain ⟨hlen₂, hframe₂, hE₂⟩ := ihds ps mid hi₁ htail
              (fun tv htv => hwf1 tv (by rw [hlkd]; exact htv))
            rw [show ((p.1, p.2) : String × PyVal) = p from rfl] at hlkp
            rw [hlkp, hupd]
            refine ⟨hlen₂, ?_, ?_⟩
            · intro b hb
              refine hframe₂ b ?_
              rcases hb with hb | hb
              · exact Or.inl (by omega)
              · exact Or.inr hb
            · refine ⟨hk, mid, hlm, hmid, ?_, hE₂⟩
              exact Encodes_transfer h _ mid lo₁ p.2 d.2 lo₁ mid hhead
                (fun b _ hb2 => hframe₂ b (Or.inl hb2)) le_rfl le_rfl
    obtain ⟨hlen, hframe, hE₂⟩ := main ds ps lo a hentries hwf'
    rw [hproc]
    refine ⟨hlen, ?_, ?_⟩
    · intro b hb
      refine hframe b ?_
      rcases hb with hb | hb
      · exact Or.inl hb
      · exact Or.inr (by omega)
    · refine ⟨a, ps, rfl, hloa, hahi, ?_, hE₂⟩
      exact hframe a (Or.inr le_rfl) ▸ hcell

/-- The tool-loop body: strips `required` along the
`function.parameters.properties` path, mutating only inside the region. -/
theorem procTool_spec (h : Heap) (lo hi : Nat) (v : PyVal) (t : JVal)
    (hE : Encodes h lo hi v t) (hwf : toolWF t = true) :
    (procTool h v).length = h.length ∧
    (∀ b, b < lo ∨ hi ≤ b → (procTool h v)[b]? = h[b]?) ∧
    Encodes (procTool h v) lo hi v
      (stripAtKey "function" (stripAtKey "parameters"
        (stripAtKey "properties" stripProps)) t) := by
  have spec3 := procAtKey_spec "properties" procProps stripProps propsWF
    (fun hh lo hi pv tv hE1 hwf1 => procProps_spec hh lo hi pv tv hE1 hwf1)
  have spec2 := procAtKey_spec "parameters" (procAtKey "properties" procProps)
    (stripAtKey "properties" stripProps) paramsWF
    (fun hh lo hi pv tv hE1 hw => spec3 hh lo hi pv tv hE1
      (by
        unfold paramsWF at hw
        rw [Bool.and_eq_true] at hw
        exact hw.2))
  have spec1 := procAtKey_spec "function"
    (procAtKey "parameters" (procAtKey "properties" procProps))
    (stripAtKey "parameters" (stripAtKey "properties" stripProps)) functionWF
    (fun hh lo hi pv tv hE1 hw => spec2 hh lo hi pv tv hE1
      (by
        unfold functionWF at hw
        rw [Bool.and_eq_true] at hw
        exact hw.2))
  exact spec1 h lo hi v t hE hwf

/-- The whole mutation phase: on a wellformed tool-definition list it
transforms the encoded tree by `stripRequired`, mutating only inside the
region. -/
theorem processTools_spec (h : Heap) (lo hi : Nat) (v : PyVal) (t : JVal)
    (hE : Encodes h lo hi v t) (hwf : toolDefsWF t = true) :
    (processTools h v).length = h.length ∧
    (∀ b, b < lo ∨ hi ≤ b → (processTools h v)[b]? = h[b]?) ∧
    Encodes (processTools h v) lo hi v (stripRequired t) := by
  cases t with
  | str s => cases hwf
  | dict ds => cases hwf
  | arr ts =>
    obtain ⟨a, vs, rfl, hloa, hahi, hcell, hlist⟩ := hE
    have htools : ∀ t ∈ ts, toolWF t = true := by
      simpa [toolDefsWF, List.all_eq_true] using hwf
    have hproc : processTools h (.ref a) = vs.foldl procTool h := by
      simp only [processTools, hcell]
    have fold : ∀ (ts : List JVal) (vs : List PyVal) (lo₁ hi₁ : Nat) (hh : Heap),
        EncodesList hh lo₁ hi₁ vs ts → (∀ t ∈ ts, toolWF t = true) →
        (vs.foldl procTool hh).length = hh.length ∧
        (∀ b, b < lo₁ ∨ hi₁ ≤ b → (vs.foldl procTool hh)[b]? = hh[b]?) ∧
        EncodesList (vs.foldl procTool hh) lo₁ hi₁ vs
          (ts.map (stripAtKey "function" (stripAtKey "parameters"
            (stripAtKey "properties" stripProps)))) := by
      intro ts
      induction ts with
      | nil =>
        intro vs lo₁ hi₁ hh hE1 _
        cases vs with
        | nil => exact ⟨rfl, fun b _ => rfl, trivial⟩
        | cons v vs => exact absurd hE1 (by simp [EncodesList])
      | cons t ts ihts =>
        intro vs lo₁ hi₁ hh hE1 hwf1
        cases vs with
        | nil => exact absurd hE1 (by simp [EncodesList])
        | cons v vs =>
          obtain ⟨mid, hlm, hmid, hhead, htail⟩ := hE1
          obtain ⟨hlen₁, hframe₁, hE₁⟩ :=
            procTool_spec hh lo₁ mid v t hhead (hwf1 t (List.mem_cons_self _ _))
          have htail₁ : EncodesList (procTool hh v) mid hi₁ vs ts :=
            EncodesList_transfer hh _ ts vs mid hi₁ mid hi₁ htail
              (fun b hb1 _ => hframe₁ b (Or.inr hb1)) le_rfl le_rfl
          obtain ⟨hlen₂, hframe₂, hE₂⟩ := ihts vs mid hi₁ (procTool hh v) htail₁
            (fun t1 ht1 => hwf1 t1 (List.mem_cons_of_mem _ ht1))
          rw [List.foldl_cons]
          refine ⟨by rw [hlen₂, hlen₁], ?_, ?_⟩
          · intro b hb
            have hb₂ : b < mid ∨ hi₁ ≤ b := by
              rcases hb with hb | hb
              · exact Or.inl (by omega)
              · exact Or.inr hb
            have hb₁ : b < lo₁ ∨ mid ≤ b := by
              rcases hb with hb | hb
              · exact Or.inl hb
              · exact Or.inr (by omega)
            rw [hframe₂ b hb₂, hframe₁ b hb₁]
          · refine ⟨mid, hlm, hmid, ?_, hE₂⟩
            refine Encodes_transfer _ _ mid lo₁ v _ lo₁ mid hE₁ ?_ le_rfl le_rfl
            intro b hb1 hb2
            exact hframe₂ b (Or.inl hb2)
    obtain ⟨hlen, hframe, hE₂⟩ := fold ts vs lo a h hlist htools
    rw [hproc]
    refine ⟨hlen, ?_, ?_⟩
    · intro b hb
      refine hframe b ?_
      rcases hb with hb | hb
      · exact Or.inl hb
      · exact Or.inr (by omega)
    · exact ⟨a, vs, rfl, hloa, hahi, hframe a (Or.inr le_rfl) ▸ hcell, hE₂⟩

/-- C10: `remove_required_from_properties` operates on a deep copy — every
heap cell that existed before the call is untouched, so its input argument
reads back unchanged at any fuel — and the returned copy reads back as the
input tree with the key `required` removed from every property of every
tool's `function.parameters.properties` object (`stripRequired`), everything
else (including any `parameters.required` array) intact. -/
theorem C10_remove_required_pure (h : Heap) (v : PyVal)
    (hwf : h.wf = true) (hv : v.belowB h.length = true)
    (hshape : toolDefsWF (readVal h h.length v) = true) :
    (∀ a, a < h.length → (remove_required_from_properties h v).1[a]? = h[a]?) ∧
    (∀ fuel, readVal (remove_required_from_properties h v).1 fuel v
      = readVal h fuel v) ∧
    readVal (remove_required_from_properties h v).1
        (remove_required_from_properties h v).1.length
        (remove_required_from_properties h v).2
      = stripRequired (readVal h h.length v) := by
  obtain ⟨⟨Δ, hext⟩, hEnc⟩ := allocTree_spec (readVal h h.length v) h
  obtain ⟨hlen₂, hframe₂, hE₂⟩ :=
    processTools_spec (allocTree h (readVal h h.length v)).1
      h.length (allocTree h (readVal h h.length v)).1.length
      (allocTree h (readVal h h.length v)).2 (readVal h h.length v) hEnc hshape
  have hres1 : (remove_required_from_properties h v).1
      = processTools (allocTree h (readVal h h.length v)).1
          (allocTree h (readVal h h.length v)).2 := rfl
  have hres2 : (remove_required_from_properties h v).2
      = (allocTree h (readVal h h.length v)).2 := rfl
  have hpart1 : ∀ a, a < h.length →
      (remove_required_from_properties h v).1[a]? = h[a]? := by
    intro a ha
    have haext : a < (allocTree h (readVal h h.length v)).1.length := by
      rw [hext]
      simp only [List.length_append]
      omega
    rw [hres1, hframe₂ a (Or.inl ha), hext, getElem?_extend ha]
  refine ⟨hpart1, ?_, ?_⟩
  · intro fuel
    exact readVal_agree h _ h.length (fun a ha => hpart1 a ha)
      (fun a _ cell hc => Heap.wf_lookup hwf a cell hc) fuel v hv
  · rw [hres1, hres2]
    refine Encodes_readVal _ (allocTree h (readVal h h.length v)).1.length
      h.length _ _ hE₂ _ ?_
    exact hlen₂.ge

/-- C10 witness: a concrete OpenAI-format tool-definition list in a concrete
heap. -/
theorem C10_witness :
    (∀ a, a < demoHeap.length →
      (remove_required_from_properties demoHeap demoRoot).1[a]? = demoHeap[a]?) ∧
    (∀ fuel, readVal (remove_required_from_properties demoHeap demoRoot).1 fuel demoRoot
      = readVal demoHeap fuel demoRoot) ∧
    readVal (remove_required_from_properties demoHeap demoRoot).1
        (remove_required_from_properties demoHeap demoRoot).1.length
        (remove_required_from_properties demoHeap demoRoot).2
      = stripRequired (readVal demoHeap demoHeap.length demoRoot) :=
  C10_remove_required_pure demoHeap demoRoot (by decide) (by decide) (by decide)

end BizCon
